import Mathlib

/-!
A verification development for the core of the Atlas schema-management
engine.  The Lean definitions below are a shallow embedding of the Go
sources: the generic differ (`sql/internal/sqlx`), the migration
executor and planner (`sql/migrate`), the SQLite file lock
(`sql/sqlite/driver.go`) and the client hook dispatch
(`sql/sqlclient/client.go`).  Pure Go functions become Lean functions;
stateful code is modelled by explicit state passing; fallible code
returns `Except`/`Option`.
-/

set_option autoImplicit false

namespace Atlas

/-! ## The sqlx generic diff engine (sql/internal/sqlx)

The schema model follows the `sql/schema` package: the structures keep
only the fields that the generic differ reads.  Back-references
(Column to Table, Table to Schema) are relations, not ownership, and
the differ only ever reads names through them, so a foreign key stores
the referenced table name rather than a cyclic pointer. -/

namespace Sqlx

/-- An element attribute.  The generic differ inspects attribute bags only
through the driver predicates and through `CommentChange`, which looks for
the first comment attribute; everything else is opaque to it. -/
inductive Attr where
  | comment (text : String)
  | other (tag : String)
  deriving DecidableEq, Repr

/-- `schema.ChangeKind` is a bitset naming the dimensions of a modify
change that differ.  The Go code stores it in a `uint`; the shallow
embedding keeps one `Bool` per bit. -/
structure ChangeKind where
  attr : Bool
  charset : Bool
  collate : Bool
  comment : Bool
  null : Bool
  ctype : Bool
  cdefault : Bool
  generated : Bool
  unique : Bool
  parts : Bool
  column : Bool
  refColumn : Bool
  refTable : Bool
  updateAction : Bool
  deleteAction : Bool
  deriving DecidableEq, Repr

namespace ChangeKind

/-- `schema.NoChange`: the zero bitset. -/
def noChange : ChangeKind :=
  ⟨false, false, false, false, false, false, false, false,
   false, false, false, false, false, false, false⟩

/-- Bitwise or of two change kinds (`change |= other` in Go). -/
def lor (a b : ChangeKind) : ChangeKind :=
  ⟨a.attr || b.attr, a.charset || b.charset, a.collate || b.collate,
   a.comment || b.comment, a.null || b.null, a.ctype || b.ctype,
   a.cdefault || b.cdefault, a.generated || b.generated,
   a.unique || b.unique, a.parts || b.parts, a.column || b.column,
   a.refColumn || b.refColumn, a.refTable || b.refTable,
   a.updateAction || b.updateAction, a.deleteAction || b.deleteAction⟩

/-- `change &= ^schema.ChangeUnique`: clear the Unique bit. -/
def maskUnique (a : ChangeKind) : ChangeKind :=
  { a with unique := false }

/-- The single-bit kinds used by the embedded code. -/
def changeUnique : ChangeKind := { noChange with unique := true }

def changeAttr : ChangeKind := { noChange with attr := true }

def changeParts : ChangeKind := { noChange with parts := true }

def changeComment : ChangeKind := { noChange with comment := true }

def changeColumn : ChangeKind := { noChange with column := true }

def changeRefColumn : ChangeKind := { noChange with refColumn := true }

def changeRefTable : ChangeKind := { noChange with refTable := true }

def changeUpdateAction : ChangeKind := { noChange with updateAction := true }

def changeDeleteAction : ChangeKind := { noChange with deleteAction := true }

end ChangeKind

/-- A table column.  The generic differ reads only its name and its
attribute bag; the column type is diffed by the driver. -/
structure Column where
  name : String
  attrs : List Attr
  deriving DecidableEq, Repr

/-- An index part: either a column reference (`C`, stored here by name,
which is the only field the differ reads) or a raw expression (`X`,
always a `schema.RawExpr` whose string the differ reads). -/
structure IndexPart where
  seqNo : Nat
  desc : Bool
  column : Option String
  expr : Option String
  attrs : List Attr
  deriving DecidableEq, Repr

/-- An index (also used for primary keys). -/
structure Index where
  name : String
  unique : Bool
  parts : List IndexPart
  attrs : List Attr
  deriving DecidableEq, Repr

/-- A foreign key.  `refTableName` stands for `RefTable.Name`;
columns are stored by name since `fkChange` compares names only. -/
structure ForeignKey where
  symbol : String
  columns : List String
  refTableName : String
  refColumns : List String
  onUpdate : String
  onDelete : String
  attrs : List Attr
  deriving DecidableEq, Repr

/-- A trigger; the generic differ matches triggers by name and
delegates the comparison to the optional TriggerDiffer capability. -/
structure Trigger where
  name : String
  body : String
  deriving DecidableEq, Repr

/-- A table. -/
structure Table where
  name : String
  columns : List Column
  primaryKey : Option Index
  indexes : List Index
  foreignKeys : List ForeignKey
  triggers : List Trigger
  attrs : List Attr
  deriving DecidableEq, Repr

/-- A view.  `defn` is the view definition (`View.Def`); `materialized`
models the `Materialized()` predicate used by `findView`. -/
structure View where
  name : String
  defn : String
  materialized : Bool
  columns : List Column
  indexes : List Index
  triggers : List Trigger
  attrs : List Attr
  deriving DecidableEq, Repr

/-- A schema: tables, views and an attribute bag.  Schema objects,
functions and procedures are diffed exclusively by driver callbacks,
so the generic differ never inspects them and they are left out. -/
structure Schema where
  name : String
  tables : List Table
  views : List View
  attrs : List Attr
  deriving DecidableEq, Repr

/-- The closed set of change variants produced by the schema-level
diff path (`schema.Change`). -/
inductive Change where
  | modifySchema (s : Schema) (changes : List Change)
  | addTable (t : Table)
  | dropTable (t : Table)
  | modifyTable (t : Table) (changes : List Change)
  | renameTable (fromT toT : Table)
  | addColumn (c : Column)
  | dropColumn (c : Column)
  | modifyColumn (fromC toC : Column) (change : ChangeKind)
  | addPrimaryKey (i : Index)
  | dropPrimaryKey (i : Index)
  | modifyPrimaryKey (fromI toI : Index) (change : ChangeKind)
  | renameConstraint (fromI toI : Index)
  | addIndex (i : Index)
  | dropIndex (i : Index)
  | modifyIndex (fromI toI : Index) (change : ChangeKind)
  | addForeignKey (f : ForeignKey)
  | dropForeignKey (f : ForeignKey)
  | modifyForeignKey (fromF toF : ForeignKey) (change : ChangeKind)
  | addView (v : View)
  | dropView (v : View)
  | modifyView (fromV toV : View) (changes : List Change)
  | addTrigger (t : Trigger)
  | dropTrigger (t : Trigger)
  | modifyTrigger (fromT toT : Trigger)
  | addAttr (a : Attr)
  | dropAttr (a : Attr)
  | modifyAttr (fromA toA : Attr)
  deriving Repr

/-- The single-quote character. -/
def quoteChar : Char := Char.ofNat 39

/-- The backslash character. -/
def backslashChar : Char := Char.ofNat 92

/-- Scanner for balanced-wrapped expressions: walks the characters that
follow a leading opening parenthesis, carrying the nesting depth `d`, a
flag marking an open single-quoted string and a flag marking a pending
backslash escape inside it.  The input is balanced-wrapped exactly when
the depth returns to zero on the final character and never earlier. -/
def scanWrapped : List Char → Nat → Bool → Bool → Bool
  | [], d, inStr, _ => d == 0 && !inStr
  | _ :: cs, d, true, true => scanWrapped cs d true false
  | c :: cs, d, true, false =>
    if c == backslashChar then scanWrapped cs d true true
    else if c == quoteChar then scanWrapped cs d false false
    else scanWrapped cs d true false
  | c :: cs, d, false, _ =>
    if d == 0 then false
    else if c == '(' then scanWrapped cs (d + 1) false false
    else if c == ')' then scanWrapped cs (d - 1) false false
    else if c == quoteChar then scanWrapped cs d true false
    else scanWrapped cs d false false

/-- Modelled from the spec: `sqlx.MayWrap` is code of this repository that
is not under `src/` (only its test and its callers are).  Per the spec it
"returns `(s)` unless `s` is already a fully balanced parenthesized
expression, accounting for single-quoted strings and backslash escapes",
and it is idempotent. -/
def MayWrap (s : String) : String :=
  match s.toList with
  | c :: cs => if c == '(' && scanWrapped cs 1 false false then s else "(" ++ s ++ ")"
  | [] => "(" ++ s ++ ")"

/-- The first comment attribute of a bag, as located by `sqlx.Has` with a
`*schema.Comment` target. -/
def findComment : List Attr → Option String
  | [] => none
  | .comment t :: _ => some t
  | .other _ :: rest => findComment rest

/-- `sqlx.CommentChange`: reports if the element comment was changed.  A
missing comment attribute leaves the zero value (empty text) in place,
exactly as `Has` does. -/
def CommentChange (fromA toA : List Attr) : ChangeKind :=
  if (findComment fromA).isSome != (findComment toA).isSome
      || (findComment fromA).getD "" != (findComment toA).getD "" then
    ChangeKind.changeComment
  else
    ChangeKind.noChange

/-- The cut set of `TrimViewExtra`: space, carriage return, newline, tab
and semicolon. -/
def trimSet : List Char := [' ', Char.ofNat 13, Char.ofNat 10, Char.ofNat 9, ';']

/-- `sqlx.TrimViewExtra`: `strings.Trim(s, " \r\n\t;")`. -/
def TrimViewExtra (s : String) : String :=
  String.mk (((s.toList.dropWhile (trimSet.contains ·)).reverse.dropWhile
    (trimSet.contains ·)).reverse)

/-- The indentation normalization of `BodyDefChanged`: trim every line and
join the non-empty ones with single spaces (a space is written before
every non-empty segment except the first). -/
def noident (v : String) : String :=
  String.join ((v.splitOn "\n").enum.map (fun p =>
    let s := TrimViewExtra p.2
    (if s != "" && p.1 != 0 then " " else "") ++ s))

/-- `sqlx.BodyDefChanged`: reports if a body definition changed, tolerating
trailing separators and indentation differences. -/
def BodyDefChanged (fromS toS : String) : Bool :=
  if fromS == toS then false
  else
    let f := TrimViewExtra fromS
    let t := TrimViewExtra toS
    if f == t then false
    else noident f != noident t

/-- Modelled from the spec: `schema.DiffOptions` (defined in the
`sql/schema` package, which is not under `src/`) carries the user skip
policy; `AddOrSkip` is "a DiffOptions-aware append that drops changes
matching a user-supplied skip policy". -/
structure DiffOptions where
  skipped : Change → Bool

namespace DiffOptions

/-- The changes that survive the skip policy;
`opts.AddOrSkip(changes, cs...) = changes ++ opts.keep cs`. -/
def keep (opts : DiffOptions) (cs : List Change) : List Change :=
  cs.filter (fun c => !opts.skipped c)

/-- `opts.AddOrSkip(changes, cs...)`. -/
def addOrSkip (opts : DiffOptions) (changes cs : List Change) : List Change :=
  changes ++ opts.keep cs

/-- Options with no skip policy. -/
def none' : DiffOptions := ⟨fun _ => false⟩

end DiffOptions

/-- A lookup error: Go distinguishes `schema.NotExistError` (recovered
locally into an Add/Drop change) from any other error (propagated). -/
inductive LookupErr where
  | notExist
  | failure (msg : String)
  deriving DecidableEq, Repr

/-- The `sqlx.DiffDriver` capability set: the methods every driver must
provide, followed by the optional interfaces (`Normalizer`, `TableFinder`,
`ChangeSupporter`, `TriggerDiffer`, `ProcFuncsDiffer`, the `ViewDefChanged`
override, `FindGeneratedIndex` and `ChangesAnnotator`); `none` models a
driver that does not implement the optional capability.  `ColumnChange`
returns `none` for `sqlx.NoChange` (a nil `schema.Change`), and
`FindGeneratedIndex` identifies the found index by its position in the
table (Go identifies it by pointer). -/
structure DiffDriver where
  schemaAttrDiff : Schema → Schema → List Change
  schemaObjectDiff : Schema → Schema → DiffOptions → Except String (List Change)
  tableAttrDiff : Table → Table → DiffOptions → Except String (List Change)
  viewAttrChanges : View → View → List Change
  columnChange : Table → Column → Column → DiffOptions → Except String (Option Change)
  indexAttrChanged : List Attr → List Attr → Bool
  indexPartAttrChanged : Index → Index → Nat → Bool
  isGeneratedIndexName : Table → Index → Bool
  referenceChanged : String → String → Bool
  foreignKeyAttrChanged : List Attr → List Attr → Bool
  normalizeCap : Option (Table → Table → DiffOptions → Except String (Table × Table))
  tableFinderCap : Option (Schema → Table → Except LookupErr Table)
  supportChangeCap : Option (Change → Bool)
  triggerDiffCap : Option (Trigger → Trigger → Except String (List Change))
  procFuncsDiffCap : Option (Schema → Schema → DiffOptions → Except String (List Change))
  viewDefChangedCap : Option (View → View → Bool)
  findGeneratedIndexCap : Option (Table → Index → Option Nat)
  annotateCap : Option (List Change → DiffOptions → Except String Unit)

/-- `Table.Column(name)`: first column with the given name. -/
def Table.column? (t : Table) (name : String) : Option Column :=
  t.columns.find? (fun c => c.name == name)

/-- `Table.Index(name)`: first index with the given name. -/
def Table.index? (t : Table) (name : String) : Option Index :=
  t.indexes.find? (fun i => i.name == name)

/-- Position-aware index lookup: Go tracks matched indexes by pointer
identity in the `exists` map, which for list entries is their position. -/
def Table.indexPos? (t : Table) (name : String) : Option (Nat × Index) :=
  t.indexes.enum.find? (fun p => p.2.name == name)

/-- `Table.ForeignKey(symbol)`. -/
def Table.foreignKey? (t : Table) (symbol : String) : Option ForeignKey :=
  t.foreignKeys.find? (fun f => f.symbol == symbol)

/-- `Schema.Table(name)`. -/
def Schema.table? (s : Schema) (name : String) : Option Table :=
  s.tables.find? (fun t => t.name == name)

/-- `View.Column(name)`. -/
def View.column? (v : View) (name : String) : Option Column :=
  v.columns.find? (fun c => c.name == name)

/-- Position-aware view index lookup. -/
def View.indexPos? (v : View) (name : String) : Option (Nat × Index) :=
  v.indexes.enum.find? (fun p => p.2.name == name)

/-- `sqlx.findView`: finds a view by name and materialized/plain kind
(`Schema.Materialized` for materialized views, `Schema.View` otherwise). -/
def findView (s : Schema) (v1 : View) : Option View :=
  s.views.find? (fun v => v.materialized == v1.materialized && v.name == v1.name)

/-- `(*Diff).findTable`: the driver's `TableFinder` capability when
implemented, otherwise name lookup returning `NotExistError` on a miss. -/
def DiffDriver.findTable (d : DiffDriver) (s : Schema) (t1 : Table) : Except LookupErr Table :=
  match d.tableFinderCap with
  | some f => f s t1
  | none =>
    match s.table? t1.name with
    | some t2 => .ok t2
    | none => .error .notExist

/-- Insertion of an index part into a `SeqNo`-sorted list. -/
def insertPart (p : IndexPart) : List IndexPart → List IndexPart
  | [] => [p]
  | q :: rest => if p.seqNo ≤ q.seqNo then p :: q :: rest else q :: insertPart p rest

/-- Sorting index parts by `SeqNo` (`sort.Slice` in `partsChange`). -/
def sortParts : List IndexPart → List IndexPart
  | [] => []
  | p :: rest => insertPart p (sortParts rest)

/-- A nil rename map: Go map lookups on a nil map yield the zero value. -/
def nilRenames : String → String := fun _ => ""

/-- The element-wise loop of `(*Diff).partsChange` over the sorted parts;
`i` is the position handed to the driver's `IndexPartAttrChanged`.  Column
parts must agree on the name modulo the rename map; expression parts must
agree on the raw string or on its `MayWrap`-wrapped form; a position where
the two sides are not of the same kind is a parts change. -/
def partsChangeAux (d : DiffDriver) (fromI toI : Index) (renames : String → String) :
    List IndexPart → List IndexPart → Nat → ChangeKind
  | [], [], _ => ChangeKind.noChange
  | p :: ps, q :: qs, i =>
    if p.desc != q.desc || d.indexPartAttrChanged fromI toI i then ChangeKind.changeParts
    else
      match p.column, q.column with
      | some c1, some c2 =>
        if c1 != c2 && renames c1 != c2 then ChangeKind.changeParts
        else partsChangeAux d fromI toI renames ps qs (i + 1)
      | _, _ =>
        match p.expr, q.expr with
        | some x1, some x2 =>
          if x1 != x2 && x1 != MayWrap x2 then ChangeKind.changeParts
          else partsChangeAux d fromI toI renames ps qs (i + 1)
        | _, _ => ChangeKind.changeParts
  | _, _, _ => ChangeKind.changeParts

/-- `(*Diff).partsChange`: a length mismatch is a parts change; otherwise
both sides are sorted by `SeqNo` (the Go `sort.Slice` mutates the indexes
in place, so the driver predicate sees the sorted parts too) and compared
element-wise. -/
def partsChange (d : DiffDriver) (fromI toI : Index) (renames : String → String) : ChangeKind :=
  if fromI.parts.length != toI.parts.length then ChangeKind.changeParts
  else
    let fromS := { fromI with parts := sortParts fromI.parts }
    let toS := { toI with parts := sortParts toI.parts }
    partsChangeAux d fromS toS renames fromS.parts toS.parts 0

/-- `(*Diff).indexChange`: the change kind for migrating one index to the
other. -/
def indexChange (d : DiffDriver) (fromI toI : Index) : ChangeKind :=
  let change := ChangeKind.noChange
  let change :=
    if fromI.unique != toI.unique then change.lor ChangeKind.changeUnique else change
  let change :=
    if d.indexAttrChanged fromI.attrs toI.attrs then change.lor ChangeKind.changeAttr else change
  let change := change.lor (partsChange d fromI toI nilRenames)
  change.lor (CommentChange fromI.attrs toI.attrs)

/-- `(*Diff).fkChange`: the change kind for migrating one foreign key to
the other. -/
def fkChange (d : DiffDriver) (fromF toF : ForeignKey) : ChangeKind :=
  let change := ChangeKind.noChange
  let change :=
    if fromF.refTableName != toF.refTableName then
      change.lor (ChangeKind.changeRefTable.lor ChangeKind.changeRefColumn)
    else if fromF.refColumns.length != toF.refColumns.length then
      change.lor ChangeKind.changeRefColumn
    else if (fromF.refColumns.zip toF.refColumns).any (fun p => p.1 != p.2) then
      change.lor ChangeKind.changeRefColumn
    else change
  let change :=
    if fromF.columns.length != toF.columns.length then
      change.lor ChangeKind.changeColumn
    else if (fromF.columns.zip toF.columns).any (fun p => p.1 != p.2) then
      change.lor ChangeKind.changeColumn
    else change
  let change :=
    if d.referenceChanged fromF.onUpdate toF.onUpdate then
      change.lor ChangeKind.changeUpdateAction
    else change
  let change :=
    if d.referenceChanged fromF.onDelete toF.onDelete then
      change.lor ChangeKind.changeDeleteAction
    else change
  if d.foreignKeyAttrChanged fromF.attrs toF.attrs then
    change.lor ChangeKind.changeAttr
  else change

/-- The fallback search of `similarUnnamedIndex` over the unnamed indexes
of the table. -/
def unnamedIndexPos (d : DiffDriver) (idx1 : Index) (t : Table) : Option (Nat × Index) :=
  t.indexes.enum.find? (fun p =>
    p.2.name == "" && idx1.unique == p.2.unique
      && partsChange d idx1 p.2 nilRenames == ChangeKind.noChange)

/-- `(*Diff).similarUnnamedIndex`: searches for an unnamed index with the
same uniqueness and parts, trying the driver's `FindGeneratedIndex`
capability first. -/
def similarUnnamedIndex (d : DiffDriver) (t : Table) (idx1 : Index) : Option (Nat × Index) :=
  let fromCap : Option (Nat × Index) :=
    match d.findGeneratedIndexCap with
    | some f =>
      match f t idx1 with
      | some j =>
        match t.indexes.get? j with
        | some idx2 =>
          if idx1.unique == idx2.unique
              && partsChange d idx1 idx2 nilRenames == ChangeKind.noChange then
            some (j, idx2)
          else none
        | none => none
      | none => none
    | none => none
  fromCap <|> unnamedIndexPos d idx1 t

/-- Modelled from the spec: `askForColumns`/`askForIndexes` are code of
this repository not under `src/` and the spec describes no interactive
prompting, so both are modelled as the identity on the change list. -/
def askForColumns (changes : List Change) : Except String (List Change) := .ok changes

/-- Modelled from the spec: see `askForColumns`. -/
def askForIndexes (changes : List Change) : Except String (List Change) := .ok changes

/-- The drop-or-modify half of `(*Diff).columnDiff`. -/
def dropModifyColumns (d : DiffDriver) (fromT toT : Table) (opts : DiffOptions) :
    List Column → Except String (List Change)
  | [] => .ok []
  | c1 :: rest =>
    match toT.column? c1.name with
    | none => do
      let tail ← dropModifyColumns d fromT toT opts rest
      .ok (Change.dropColumn c1 :: tail)
    | some c2 => do
      let ch ← d.columnChange fromT c1 c2 opts
      let tail ← dropModifyColumns d fromT toT opts rest
      .ok (match ch with | none => tail | some c => c :: tail)

/-- The add half of `(*Diff).columnDiff`. -/
def addColumnChanges (fromT : Table) : List Column → List Change
  | [] => []
  | c1 :: rest =>
    if (fromT.column? c1.name).isSome then addColumnChanges fromT rest
    else .addColumn c1 :: addColumnChanges fromT rest

/-- `(*Diff).columnDiff`: drops and modifications first, added columns
appended last, then the skip policy is applied to each emission. -/
def columnDiff (d : DiffDriver) (fromT toT : Table) (opts : DiffOptions) :
    Except String (List Change) := do
  let dm ← dropModifyColumns d fromT toT opts fromT.columns
  let all ← askForColumns (dm ++ addColumnChanges fromT toT.columns)
  .ok (opts.keep all)

/-- `(*Diff).pkDiff`: the four-case primary-key diff.  The `Unique` bit is
cleared from the computed kind; when nothing else changed, both names are
non-empty and differ, and the driver does not veto it (a driver without
the `ChangeSupporter` capability supports everything), a
`RenameConstraint` is emitted instead of a `ModifyPrimaryKey`.  Go hands
`SupportChange` a typed nil `*schema.RenameConstraint`; the model hands it
the rename change itself, which drivers inspect by variant only. -/
def pkDiff (d : DiffDriver) (fromT toT : Table) (opts : DiffOptions) : List Change :=
  match fromT.primaryKey, toT.primaryKey with
  | none, some pk2 => opts.keep [.addPrimaryKey pk2]
  | some pk1, none => opts.keep [.dropPrimaryKey pk1]
  | some pk1, some pk2 =>
    let change := (indexChange d pk1 pk2).maskUnique
    if change != ChangeKind.noChange then
      opts.keep [.modifyPrimaryKey pk1 pk2 change]
    else if (match d.supportChangeCap with
             | none => true
             | some f => f (.renameConstraint pk1 pk2))
        && pk1.name != "" && pk2.name != "" && pk1.name != pk2.name then
      opts.keep [.renameConstraint pk1 pk2]
    else []
  | none, none => []

/-- The drop-or-modify half of `(*Diff).indexDiffT`; the second component
collects the positions of the matched `to`-side indexes (Go's
pointer-keyed `exists` map). -/
def dropModifyIndexes (d : DiffDriver) (fromT toT : Table) :
    List Index → List Change × List Nat
  | [] => ([], [])
  | idx1 :: rest =>
    let tail := dropModifyIndexes d fromT toT rest
    match toT.indexPos? idx1.name with
    | some (j, idx2) =>
      let ch := indexChange d idx1 idx2
      if ch != ChangeKind.noChange then
        (Change.modifyIndex idx1 idx2 ch :: tail.1, j :: tail.2)
      else (tail.1, j :: tail.2)
    | none =>
      if d.isGeneratedIndexName fromT idx1 then
        match similarUnnamedIndex d toT idx1 with
        | some (j, _) => (tail.1, j :: tail.2)
        | none => (Change.dropIndex idx1 :: tail.1, tail.2)
      else (Change.dropIndex idx1 :: tail.1, tail.2)

/-- The add half of `(*Diff).indexDiffT`. -/
def addIndexChanges (fromT : Table) (exs : List Nat) : List (Nat × Index) → List Change
  | [] => []
  | (j, idx) :: rest =>
    if exs.contains j then addIndexChanges fromT exs rest
    else if (fromT.index? idx.name).isSome then addIndexChanges fromT exs rest
    else .addIndex idx :: addIndexChanges fromT exs rest

/-- `(*Diff).indexDiffT`. -/
def indexDiffT (d : DiffDriver) (fromT toT : Table) (opts : DiffOptions) :
    Except String (List Change) := do
  let dm := dropModifyIndexes d fromT toT fromT.indexes
  let all ← askForIndexes (dm.1 ++ addIndexChanges fromT dm.2 toT.indexes.enum)
  .ok (opts.keep all)

/-- The drop-or-modify foreign-key loop of `tableDiff`. -/
def dropModifyFKs (d : DiffDriver) (toT : Table) (opts : DiffOptions) :
    List ForeignKey → List Change
  | [] => []
  | fk1 :: rest =>
    match toT.foreignKey? fk1.symbol with
    | none => opts.keep [.dropForeignKey fk1] ++ dropModifyFKs d toT opts rest
    | some fk2 =>
      let ch := fkChange d fk1 fk2
      if ch != ChangeKind.noChange then
        opts.keep [.modifyForeignKey fk1 fk2 ch] ++ dropModifyFKs d toT opts rest
      else dropModifyFKs d toT opts rest

/-- The add foreign-key loop of `tableDiff`. -/
def addFKChanges (fromT : Table) (opts : DiffOptions) : List ForeignKey → List Change
  | [] => []
  | fk1 :: rest =>
    if (fromT.foreignKey? fk1.symbol).isSome then addFKChanges fromT opts rest
    else opts.keep [.addForeignKey fk1] ++ addFKChanges fromT opts rest

/-- `(*Diff).tableDiff`: table diffing without the name check.  A name
mismatch is patched for the duration of the diff (Go renames and restores
via `defer`); the optional `Normalizer` runs before diffing. -/
def tableDiff (d : DiffDriver) (fromT toT : Table) (opts : DiffOptions) :
    Except String (List Change) := do
  let fromT := if fromT.name != toT.name then { fromT with name := toT.name } else fromT
  let (fromT, toT) ←
    match d.normalizeCap with
    | none => Except.ok (fromT, toT)
    | some n => n fromT toT opts
  let attrC ← d.tableAttrDiff fromT toT opts
  let colC ← columnDiff d fromT toT opts
  let pkC := pkDiff d fromT toT opts
  let idxC ← indexDiffT d fromT toT opts
  let fkC := dropModifyFKs d toT opts fromT.foreignKeys ++ addFKChanges fromT opts toT.foreignKeys
  .ok (attrC ++ colC ++ pkC ++ idxC ++ fkC)

/-- The drop-or-modify trigger loop of the generic trigger diff. -/
def dropModifyTriggers (td : Trigger → Trigger → Except String (List Change))
    (toTs : List Trigger) (opts : DiffOptions) : List Trigger → Except String (List Change)
  | [] => .ok []
  | r1 :: rest =>
    match toTs.find? (fun r => r.name == r1.name) with
    | none => do
      let tail ← dropModifyTriggers td toTs opts rest
      .ok (opts.keep [.dropTrigger r1] ++ tail)
    | some r2 => do
      let ch ← td r1 r2
      let tail ← dropModifyTriggers td toTs opts rest
      .ok ((if ch.isEmpty then [] else opts.keep [.modifyTrigger r1 r2]) ++ tail)

/-- The add trigger loop of the generic trigger diff. -/
def addTriggerChanges (fromTs : List Trigger) (opts : DiffOptions) : List Trigger → List Change
  | [] => []
  | r1 :: rest =>
    if (fromTs.find? (fun r => r.name == r1.name)).isSome then
      addTriggerChanges fromTs opts rest
    else opts.keep [.addTrigger r1] ++ addTriggerChanges fromTs opts rest

/-- Modelled from the spec: `(*Diff).triggerDiff` is code of this
repository not under `src/`.  Per the spec, trigger comparison is
delegated to the optional `TriggerDiffer` capability; a driver without it
produces no trigger changes.  With the capability, triggers are matched by
name: unmatched ones are dropped or added and matched ones are modified
when the driver reports changes. -/
def triggerDiff (d : DiffDriver) (fromTs toTs : List Trigger) (opts : DiffOptions) :
    Except String (List Change) :=
  match d.triggerDiffCap with
  | none => .ok []
  | some td => do
    let dm ← dropModifyTriggers td toTs opts fromTs
    .ok (dm ++ addTriggerChanges fromTs opts toTs)

/-- Structural equivalence of two tables up to their name, used by the
rename-collapse pass. -/
def structurallyEqual (t1 t2 : Table) : Bool :=
  t1.columns == t2.columns && t1.primaryKey == t2.primaryKey
    && t1.indexes == t2.indexes && t1.foreignKeys == t2.foreignKeys
    && t1.triggers == t2.triggers && t1.attrs == t2.attrs

/-- Modelled from the spec: `(*Diff).fixRenames` is code of this
repository not under `src/`.  Per the spec it is "a post-pass that
collapses adjacent `DropTable{X}` + `AddTable{Y}` where X and Y are
structurally equivalent into a `RenameTable`", proposed only when the
driver supports renames. -/
def fixRenames (d : DiffDriver) : List Change → List Change
  | .dropTable x :: .addTable y :: rest =>
    if (match d.supportChangeCap with
        | none => true
        | some f => f (.renameTable x y)) && structurallyEqual x y then
      .renameTable x y :: fixRenames d rest
    else .dropTable x :: fixRenames d (.addTable y :: rest)
  | c :: rest => c :: fixRenames d rest
  | [] => []

/-- `sqlx.addTableChange`: the changeset for creating a table. -/
def addTableChange (t : Table) : List Change :=
  .addTable t :: t.triggers.map .addTrigger

/-- `sqlx.addViewChange`: the changeset for creating a view. -/
def addViewChange (v : View) : List Change :=
  .addView v :: v.triggers.map .addTrigger

/-- `(*Diff).columnDiffV`: view columns support only comment changes, and
view columns missing on the desired side are ignored. -/
def columnDiffV (fromV toV : View) (opts : DiffOptions) : List Column → List Change
  | [] => []
  | c1 :: rest =>
    match toV.column? c1.name with
    | none => columnDiffV fromV toV opts rest
    | some c2 =>
      let ch := CommentChange c1.attrs c2.attrs
      if ch != ChangeKind.noChange then
        opts.keep [.modifyColumn c1 c2 ch] ++ columnDiffV fromV toV opts rest
      else columnDiffV fromV toV opts rest

/-- The drop-or-modify half of `(*Diff).indexDiffV`; the second component
collects matched `to`-side positions. -/
def dropModifyIndexesV (d : DiffDriver) (toV : View) (opts : DiffOptions) :
    List Index → List Change × List Nat
  | [] => ([], [])
  | idx1 :: rest =>
    let tail := dropModifyIndexesV d toV opts rest
    match toV.indexPos? idx1.name with
    | some (j, idx2) =>
      let ch := indexChange d idx1 idx2
      if ch != ChangeKind.noChange then
        (opts.keep [.modifyIndex idx1 idx2 ch] ++ tail.1, j :: tail.2)
      else (tail.1, j :: tail.2)
    | none => (opts.keep [.dropIndex idx1] ++ tail.1, tail.2)

/-- The add half of `(*Diff).indexDiffV`. -/
def addIndexChangesV (fromV : View) (exs : List Nat) (opts : DiffOptions) :
    List (Nat × Index) → List Change
  | [] => []
  | (j, idx) :: rest =>
    if exs.contains j then addIndexChangesV fromV exs opts rest
    else if (fromV.indexPos? idx.name).isSome then addIndexChangesV fromV exs opts rest
    else opts.keep [.addIndex idx] ++ addIndexChangesV fromV exs opts rest

/-- `(*Diff).indexDiffV`. -/
def indexDiffV (d : DiffDriver) (fromV toV : View) (opts : DiffOptions) :
    Except String (List Change) := do
  let dm := dropModifyIndexesV d toV opts fromV.indexes
  askForIndexes (dm.1 ++ addIndexChangesV fromV dm.2 opts toV.indexes.enum)

/-- `(*Diff).viewDefChanged`: the driver override when present, otherwise
`BodyDefChanged` on the definitions. -/
def viewDefChanged (d : DiffDriver) (v1 v2 : View) : Bool :=
  match d.viewDefChangedCap with
  | some f => f v1 v2
  | none => BodyDefChanged v1.defn v2.defn

/-- `(*Diff).viewDiff`. -/
def viewDiff (d : DiffDriver) (fromV toV : View) (opts : DiffOptions) :
    Except String (List Change) := do
  let c1 ← indexDiffV d fromV toV opts
  let c2 := columnDiffV fromV toV opts fromV.columns
  let vs := d.viewAttrChanges fromV toV ++ c1 ++ c2
  if vs.length > 0 || viewDefChanged d fromV toV then
    .ok (opts.keep [.modifyView fromV toV vs])
  else .ok []

/-- The drop-or-modify table loop of `(*Diff).schemaDiff`. -/
def dropModifyTables (d : DiffDriver) (toS : Schema) (opts : DiffOptions) :
    List Table → Except String (List Change)
  | [] => .ok []
  | t1 :: rest =>
    match d.findTable toS t1 with
    | .error .notExist => do
      let tail ← dropModifyTables d toS opts rest
      .ok (opts.keep [.dropTable t1] ++ tail)
    | .error (.failure msg) => .error msg
    | .ok t2 => do
      let tc ← tableDiff d t1 t2 opts
      let trc ← triggerDiff d t1.triggers t2.triggers opts
      let tail ← dropModifyTables d toS opts rest
      .ok ((if tc.length > 0 then opts.keep [.modifyTable t2 tc] else []) ++ trc ++ tail)

/-- The add-table loop of `(*Diff).schemaDiff`. -/
def addTableLoop (d : DiffDriver) (fromS : Schema) (opts : DiffOptions) :
    List Table → Except String (List Change)
  | [] => .ok []
  | t1 :: rest =>
    match d.findTable fromS t1 with
    | .error .notExist => do
      let tail ← addTableLoop d fromS opts rest
      .ok (opts.keep (addTableChange t1) ++ tail)
    | .error (.failure msg) => .error msg
    | .ok _ => addTableLoop d fromS opts rest

/-- The drop-or-modify view loop of `(*Diff).schemaDiff`. -/
def dropModifyViews (d : DiffDriver) (toS : Schema) (opts : DiffOptions) :
    List View → Except String (List Change)
  | [] => .ok []
  | v1 :: rest =>
    match findView toS v1 with
    | none => do
      let tail ← dropModifyViews d toS opts rest
      .ok (opts.keep [.dropView v1] ++ tail)
    | some v2 => do
      let vc ← viewDiff d v1 v2 opts
      let trc ← triggerDiff d v1.triggers v2.triggers opts
      let tail ← dropModifyViews d toS opts rest
      .ok (vc ++ trc ++ tail)

/-- The add-view loop of `(*Diff).schemaDiff`. -/
def addViewLoop (fromS : Schema) (opts : DiffOptions) : List View → List Change
  | [] => []
  | v1 :: rest =>
    if (findView fromS v1).isSome then addViewLoop fromS opts rest
    else opts.keep (addViewChange v1) ++ addViewLoop fromS opts rest

/-- `(*Diff).schemaDiff`: mismatched names are an error; otherwise schema
attributes and objects are diffed by the driver, tables are dropped or
modified, the rename post-pass runs, tables are added, views follow the
same pattern and functions/procedures are diffed when supported. -/
def schemaDiff (d : DiffDriver) (fromS toS : Schema) (opts : DiffOptions) :
    Except String (List Change) := do
  if fromS.name != toS.name then
    .error ("mismatched schema names: " ++ fromS.name ++ " != " ++ toS.name)
  else do
    let attrC : List Change :=
      match d.schemaAttrDiff fromS toS with
      | [] => []
      | cs => opts.keep [.modifySchema toS cs]
    let objC ← d.schemaObjectDiff fromS toS opts
    let tablesC ← dropModifyTables d toS opts fromS.tables
    let afterRenames := fixRenames d (attrC ++ opts.keep objC ++ tablesC)
    let addT ← addTableLoop d fromS opts toS.tables
    let viewsC ← dropModifyViews d toS opts fromS.views
    let addV := addViewLoop fromS opts toS.views
    let pfC ←
      match d.procFuncsDiffCap with
      | none => Except.ok []
      | some pf => pf fromS toS opts
    .ok (afterRenames ++ addT ++ viewsC ++ addV ++ pfC)

/-- `(*Diff).mayAnnotate`. -/
def mayAnnotate (d : DiffDriver) (changes : List Change) (opts : DiffOptions) :
    Except String (List Change) :=
  match d.annotateCap with
  | none => .ok changes
  | some f => do
    let _ ← f changes opts
    .ok changes

/-- `(*Diff).SchemaDiff`. -/
def SchemaDiff (d : DiffDriver) (fromS toS : Schema) (opts : DiffOptions) :
    Except String (List Change) := do
  let cs ← schemaDiff d fromS toS opts
  mayAnnotate d cs opts

end Sqlx

/-! ## The migration executor and planner (sql/migrate)

The implementation of `sql/migrate` is code of this repository that is
not under `src/` — only its tests are — so this whole section is
modelled from the spec (sections 4.E-4.H): directives, the revision
log, pending-file computation under the three linearity policies,
checkpoint supersession, statement-by-statement execution with partial
progress and resume, and tamper detection over partial hashes.
Statement hashes are modelled as the statement text itself (hashes
collide exactly when the hashed texts are equal); wall-clock fields
(`ExecutedAt`, `ExecutionTime`) are not modelled. -/

namespace Migrate

/-- Modelled from the spec: the statement hash ("hash of each statement
text + leading comments"), idealized as the identity on the text. -/
def stmtHash (s : String) : String := s

/-- A migration file: its name, its scanned statements and its
checkpoint directive flag. -/
structure MigFile where
  name : String
  stmts : List String
  checkpoint : Bool
  deriving DecidableEq, Repr

/-- Drop a trailing `.sql` extension from a file name. -/
def dropSqlExt (cs : List Char) : List Char :=
  if cs.length ≥ 4 && cs.drop (cs.length - 4) == ".sql".toList then
    cs.take (cs.length - 4)
  else cs

/-- Split a name at the first underscore: the version comes before it,
the description after it. -/
def splitVersion : List Char → List Char × List Char
  | [] => ([], [])
  | c :: cs =>
    if c == '_' then ([], cs)
    else
      let p := splitVersion cs
      (c :: p.1, p.2)

/-- The version of a migration file: the name prefix up to the first
underscore, with the `.sql` extension removed. -/
def MigFile.version (f : MigFile) : String :=
  String.mk (splitVersion (dropSqlExt f.name.toList)).1

/-- The description of a migration file: the remainder after the first
underscore. -/
def MigFile.desc (f : MigFile) : String :=
  String.mk (splitVersion (dropSqlExt f.name.toList)).2

/-- The revision type bitset: `Baseline | Execute | Resolved`. -/
structure RevisionType where
  baseline : Bool
  execute : Bool
  resolved : Bool
  deriving DecidableEq, Repr

/-- The zero revision type. -/
def RevisionType.zero : RevisionType := ⟨false, false, false⟩

/-- A revision row (section 4.G); the wall-clock columns are omitted. -/
structure Revision where
  version : String
  description : String
  rtype : RevisionType
  applied : Nat
  total : Nat
  error : String
  errorStmt : String
  hash : String
  partialHashes : List String
  operatorVersion : String
  deriving DecidableEq, Repr

/-- `ReadRevision(version)` on the in-memory store. -/
def readRevision (revs : List Revision) (v : String) : Option Revision :=
  revs.find? (fun r => r.version == v)

/-- `WriteRevision`: upsert by version. -/
def writeRevision (revs : List Revision) (r : Revision) : List Revision :=
  if (revs.find? (fun x => x.version == r.version)).isSome then
    revs.map (fun x => if x.version == r.version then r else x)
  else revs ++ [r]

/-- The executor linearity policy (`ExecOrder`). -/
inductive ExecOrder where
  | linear
  | linearSkip
  | nonLinear
  deriving DecidableEq, Repr

/-- The error kinds of the executor that the claims distinguish. -/
inductive MigrateErr where
  | noPendingFiles
  | historyNonLinear (names : List String)
  | historyChanged (fileName : String)
  | stmtError (stmt : String) (msg : String)
  deriving DecidableEq, Repr

/-- Byte-wise lexicographic order on character lists (Go's `<` on
strings, restricted to the ASCII names at hand). -/
def lexLt : List Char → List Char → Bool
  | [], [] => false
  | [], _ :: _ => true
  | _ :: _, [] => false
  | a :: as, b :: bs =>
    if a.toNat < b.toNat then true
    else if a.toNat == b.toNat then lexLt as bs
    else false

/-- Lexical `<` on strings. -/
def strLt (a b : String) : Bool := lexLt a.toList b.toList

/-- Lexical `≤` on strings. -/
def strLe (a b : String) : Bool := strLt a b || a == b

/-- The directory comparison: lexical by the filename prefix (the
version), ties broken by the full name. -/
def fileLe (f g : MigFile) : Bool :=
  strLt f.version g.version || (f.version == g.version && strLe f.name g.name)

/-- Insertion of a file into a sorted list. -/
def insertFile (f : MigFile) : List MigFile → List MigFile
  | [] => [f]
  | g :: rest => if fileLe f g then f :: g :: rest else g :: insertFile f rest

/-- Directory order: lexical by the version prefix. -/
def sortFiles : List MigFile → List MigFile
  | [] => []
  | f :: rest => insertFile f (sortFiles rest)

/-- A file counts as applied when a revision with its version exists and
is complete (`Applied = Total`); partial revisions leave the file
pending. -/
def isApplied (revs : List Revision) (f : MigFile) : Bool :=
  match readRevision revs f.version with
  | some r => r.applied == r.total
  | none => false

/-- The highest version among the recorded revisions (lexical order). -/
def maxVersion : List Revision → Option String
  | [] => none
  | r :: rest =>
    match maxVersion rest with
    | none => some r.version
    | some v => some (if strLe r.version v then v else r.version)

/-- A pending file is out of order when its version is strictly below the
highest recorded version. -/
def isOutOfOrder (revs : List Revision) (f : MigFile) : Bool :=
  match maxVersion revs with
  | none => false
  | some v => strLt f.version v

/-- Modelled from the spec: all files before the last checkpoint file are
superseded by it — they are neither executed nor reported, and no
revision row is ever written for them. -/
def fromLastCheckpoint : List MigFile → List MigFile
  | [] => []
  | f :: rest =>
    if rest.any (fun g => g.checkpoint) then fromLastCheckpoint rest
    else f :: rest

/-- Modelled from the spec: `(*Executor).Pending`.  The directory is
taken in lexical order, files superseded by a checkpoint are removed,
applied files are filtered out, and the linearity policy decides what
happens to out-of-order files: `Linear` reports them as a history-non-
linear error naming the offending files, `LinearSkip` silently excludes
them, `NonLinear` keeps them.  An empty result is the `ErrNoPendingFiles`
sentinel.  The checksum validation and the clean-database/baseline check
are outside the claims and are not modelled. -/
def pendingFiles (dir : List MigFile) (revs : List Revision) (order : ExecOrder) :
    Except MigrateErr (List MigFile) :=
  let files := fromLastCheckpoint (sortFiles dir)
  let unapplied := files.filter (fun f => !isApplied revs f)
  match order with
  | ExecOrder.linear =>
    let bad := unapplied.filter (isOutOfOrder revs)
    if bad.isEmpty then
      if unapplied.isEmpty then .error .noPendingFiles else .ok unapplied
    else .error (.historyNonLinear (bad.map (fun f => f.name)))
  | ExecOrder.linearSkip =>
    let ps := unapplied.filter (fun f => !isOutOfOrder revs f)
    if ps.isEmpty then .error .noPendingFiles else .ok ps
  | ExecOrder.nonLinear =>
    if unapplied.isEmpty then .error .noPendingFiles else .ok unapplied

/-- The driver's statement execution: `none` is success, `some msg` a
statement failure with that error text. -/
abbrev StmtExec := String → Option String

/-- Modelled from the spec: the whole-file hash, idealized like
`stmtHash`. -/
def fileHash (f : MigFile) : String := String.join f.stmts

/-- Modelled from the spec: the statement loop of `ExecuteN` (steps 4-5).
`rest` holds the statements from the resume index `i` on.  On a statement
failure the revision records `Applied = i` (the number of successfully
applied statements), the error text and the failing statement, with the
partial hashes preserved; when every statement succeeds the revision is
completed: `Applied = Total`, error fields cleared, partial hashes
cleared and the Execute type bit set. -/
def runStmts (exec : StmtExec) (rev : Revision) :
    List String → Nat → List String × Revision × Option MigrateErr
  | [], _ =>
    ([], { rev with
            applied := rev.total, error := "", errorStmt := "",
            partialHashes := [],
            rtype := { rev.rtype with execute := true } }, none)
  | s :: rest, i =>
    match exec s with
    | some msg =>
      ([], { rev with applied := i, error := msg, errorStmt := s }, some (.stmtError s msg))
    | none =>
      let r := runStmts exec rev rest (i + 1)
      (s :: r.1, r.2.1, r.2.2)

/-- Modelled from the spec: the per-file execution of `ExecuteN` (steps
1-5).  The file is scanned into statements and their hashes; a partial
revision (`Applied < Total`) triggers a resume after verifying that the
stored partial hashes still match the file's first `Applied` statements
(else `HistoryChanged` and nothing executes); otherwise an initial
revision `{Applied = 0, Total = N, hash, partial hashes}` is written and
execution starts at index 0.  Returns the executed statement texts, the
updated revision store and the error, if any. -/
def execFile (exec : StmtExec) (opVersion : String) (revs : List Revision) (f : MigFile) :
    List String × List Revision × Option MigrateErr :=
  let stmts := f.stmts
  let hashes := stmts.map stmtHash
  let fresh : Revision :=
    { version := f.version, description := f.desc, rtype := RevisionType.zero,
      applied := 0, total := stmts.length, error := "", errorStmt := "",
      hash := fileHash f, partialHashes := hashes, operatorVersion := opVersion }
  match readRevision revs f.version with
  | some rev =>
    if rev.applied < rev.total then
      if hashes.take rev.applied == rev.partialHashes.take rev.applied then
        let rev0 := { rev with total := stmts.length, partialHashes := hashes }
        let r := runStmts exec rev0 (stmts.drop rev.applied) rev.applied
        (r.1, writeRevision revs r.2.1, r.2.2)
      else ([], revs, some (.historyChanged f.name))
    else
      let r := runStmts exec fresh stmts 0
      (r.1, writeRevision (writeRevision revs fresh) r.2.1, r.2.2)
  | none =>
    let r := runStmts exec fresh stmts 0
    (r.1, writeRevision (writeRevision revs fresh) r.2.1, r.2.2)

/-- The file loop of `ExecuteN`: files execute in order and the first
error stops the run. -/
def execFiles (exec : StmtExec) (opVersion : String) :
    List MigFile → List Revision → List String × List Revision × Option MigrateErr
  | [], revs => ([], revs, none)
  | f :: rest, revs =>
    let r := execFile exec opVersion revs f
    match r.2.2 with
    | some e => (r.1, r.2.1, some e)
    | none =>
      let r2 := execFiles exec opVersion rest r.2.1
      (r.1 ++ r2.1, r2.2.1, r2.2.2)

/-- Modelled from the spec: `(*Executor).ExecuteN` — compute the pending
files and execute up to `n` of them (`n = 0` executes all). -/
def executeN (exec : StmtExec) (opVersion : String) (dir : List MigFile)
    (revs : List Revision) (order : ExecOrder) (n : Nat) :
    List String × List Revision × Option MigrateErr :=
  match pendingFiles dir revs order with
  | .error e => ([], revs, some e)
  | .ok files => execFiles exec opVersion (if n == 0 then files else files.take n) revs

/-- A planned change (`migrate.Change`). -/
structure PlanChange where
  cmd : String
  reverse : String
  deriving DecidableEq, Repr

/-- A plan (`migrate.Plan`). -/
structure Plan where
  name : String
  changes : List PlanChange
  delimiter : String
  deriving DecidableEq, Repr

/-- Modelled from the spec: the default formatter body of `WritePlan` —
each `Cmd` followed by the delimiter (default `;`) and a newline. -/
def planContent (p : Plan) : String :=
  let delim := if p.delimiter == "" then ";" else p.delimiter
  String.join (p.changes.map (fun c => c.cmd ++ delim ++ "\n"))

/-- Modelled from the spec: `(*Planner).WriteCheckpoint` "writes a file
whose first directive is `-- atlas:checkpoint <tag>`", followed by a
blank line and the plan body. -/
def writeCheckpointContent (p : Plan) (tag : String) : String :=
  "-- atlas:checkpoint " ++ tag ++ "\n\n" ++ planContent p

/-- The first line of a file's content: the characters before the first
newline. -/
def firstLine (s : String) : String :=
  String.mk (s.toList.takeWhile (fun c => c != Char.ofNat 10))

/-- A file carries the checkpoint directive when its first line starts
with the `-- atlas:checkpoint ` directive (20 characters). -/
def isCheckpointContent (content : String) : Bool :=
  (firstLine content).toList.take 20 == "-- atlas:checkpoint ".toList

/-- The revision left by a fully successful statement run. -/
def doneRev (rev : Revision) : Revision :=
  { rev with applied := rev.total, error := "", errorStmt := "",
             partialHashes := [], rtype := { rev.rtype with execute := true } }

/-- The revision left by a failed statement run: `n` statements applied,
the error and the failing statement recorded, partial hashes kept. -/
def failedRev (rev : Revision) (n : Nat) (msg sk : String) : Revision :=
  { rev with applied := n, error := msg, errorStmt := sk }

/-- The initial revision written for a fresh file. -/
def freshRevFor (op : String) (f : MigFile) : Revision :=
  { version := f.version, description := f.desc, rtype := RevisionType.zero,
    applied := 0, total := f.stmts.length, error := "", errorStmt := "",
    hash := fileHash f, partialHashes := f.stmts.map stmtHash, operatorVersion := op }

end Migrate

/-! ## The SQLite file lock (sql/sqlite/driver.go) -/

namespace Sqlite

/-- `acquireLock`: create the lock file storing the expiration
`now + timeout` (UnixNano). -/
def acquireLock (now timeout : Int) : Option Int := some (now + timeout)

/-- `(*Driver).Lock` over the lock-file state (`none` — no lock file;
`some e` — a lock file storing expiration `e`).  A missing file acquires
directly; a stored expiration strictly after `now` means the lock is
held and acquisition fails; otherwise the lock is stale and is
reclaimed by `acquireLock`.  The lock-file path construction and the
decimal parsing of the stored timestamp are file-system details outside
the model. -/
def lock (file : Option Int) (now timeout : Int) : Except String (Option Int) :=
  match file with
  | none => .ok (acquireLock now timeout)
  | some expires =>
    if now < expires then .error "sql/sqlite: lock already taken"
    else .ok (acquireLock now timeout)

/-- The unlock function returned by `acquireLock` removes the lock
file (`os.Remove`). -/
def unlock (_file : Option Int) : Option Int := none

end Sqlite

/-! ## Client hooks (sql/sqlclient/client.go) and the MySQL change
supporter (the mysql differ) -/

namespace Sqlclient

/-- The context reduced to its hook marker: `ctx.Value(hookCtxKey) != nil`
is the `Bool` itself. -/
abbrev Ctx := Bool

/-- `hookCtx`: marks the context as being in a hook (an already marked
context is returned as is). -/
def hookCtx (ctx : Ctx) : Ctx := if ctx == false then true else ctx

/-- A hook body (an `AfterOpen`/`AfterBegin` function): receives the
context it is run with and may fail. -/
abbrev HookFn := Ctx → Except String Unit

/-- Running a hook chain: the first failing hook stops the chain. -/
def runHooks (ctx : Ctx) : List HookFn → Except String Unit
  | [] => .ok ()
  | h :: rest => do
    let _ ← h ctx
    runHooks ctx rest

/-- `(*Client).afterOpen`: inside a hook (marked context) the dedicated
error is returned before any hook runs; otherwise every `AfterOpen` hook
runs with the marked context. -/
def afterOpen (ctx : Ctx) (hooks : List HookFn) : Except String Unit :=
  if ctx then Except.error "sql/sqlclient: cannot open a connection inside a hook"
  else runHooks (hookCtx ctx) hooks

/-- The hook dispatch of `OpenURL`: `afterOpen` is invoked only when
hooks were configured (`len(cfg.hooks) > 0`); an open with no hooks
never consults the marker. -/
def openURL (ctx : Ctx) (hooks : List HookFn) : Except String Unit :=
  if hooks.length > 0 then afterOpen ctx hooks else .ok ()

/-- `(*TxClient).afterBegin`: the transaction twin of `afterOpen`. -/
def afterBegin (ctx : Ctx) (hooks : List HookFn) : Except String Unit :=
  if ctx then Except.error "sql/sqlclient: cannot begin a transaction inside a hook"
  else runHooks (hookCtx ctx) hooks

/-- The hook dispatch of `(*Client).Tx`: `afterBegin` runs only when the
client carries hooks. -/
def clientTx (ctx : Ctx) (hooks : List HookFn) : Except String Unit :=
  if hooks.length > 0 then afterBegin ctx hooks else .ok ()

end Sqlclient

namespace Mysql

/-- `(*diff).SupportChange` of the MySQL differ: `RenameConstraint` is
vetoed, every other change variant is supported. -/
def mysqlSupportChange : Sqlx.Change → Bool
  | .renameConstraint _ _ => false
  | _ => true

end Mysql

namespace Sqlx

/-- A driver with inert predicates and no optional capabilities, used to
instantiate the theorems on concrete inputs. -/
def trivialDriver : DiffDriver where
  schemaAttrDiff := fun _ _ => []
  schemaObjectDiff := fun _ _ _ => .ok []
  tableAttrDiff := fun _ _ _ => .ok []
  viewAttrChanges := fun _ _ => []
  columnChange := fun _ _ _ _ => .ok none
  indexAttrChanged := fun _ _ => false
  indexPartAttrChanged := fun _ _ _ => false
  isGeneratedIndexName := fun _ _ => false
  referenceChanged := fun _ _ => false
  foreignKeyAttrChanged := fun _ _ => false
  normalizeCap := none
  tableFinderCap := none
  supportChangeCap := none
  triggerDiffCap := none
  procFuncsDiffCap := none
  viewDefChangedCap := none
  findGeneratedIndexCap := none
  annotateCap := none

/-- A MySQL-like driver: the trivial driver carrying the MySQL
`SupportChange` veto. -/
def mysqlLikeDriver : DiffDriver :=
  { trivialDriver with supportChangeCap := some Mysql.mysqlSupportChange }

/-- The reflexivity hypotheses of the idempotence claim: every element
predicate of the driver reports no change on identical inputs, and each
implemented optional capability behaves neutrally on identical inputs (a
normalizer returns its inputs, a table finder finds a member table, a
trigger differ reports no changes on a trigger against itself, a
procedures/functions differ reports none on a schema against itself, a
view-definition override reports no change on a view against itself, and
an annotator accepts an empty change list). -/
structure SelfCleanDriver (d : DiffDriver) : Prop where
  schemaAttr : ∀ s, d.schemaAttrDiff s s = []
  schemaObject : ∀ s opts, d.schemaObjectDiff s s opts = .ok []
  tableAttr : ∀ t opts, d.tableAttrDiff t t opts = .ok []
  viewAttr : ∀ v, d.viewAttrChanges v v = []
  columnRefl : ∀ t c opts, d.columnChange t c c opts = .ok none
  indexAttr : ∀ a, d.indexAttrChanged a a = false
  indexPartAttr : ∀ i n, d.indexPartAttrChanged i i n = false
  refAction : ∀ x, d.referenceChanged x x = false
  fkAttr : ∀ a, d.foreignKeyAttrChanged a a = false
  normRefl : ∀ n, d.normalizeCap = some n → ∀ t opts, n t t opts = .ok (t, t)
  finderRefl : ∀ f, d.tableFinderCap = some f → ∀ s t, t ∈ s.tables → f s t = .ok t
  triggerRefl : ∀ td, d.triggerDiffCap = some td → ∀ r, td r r = .ok []
  procFuncsRefl : ∀ pf, d.procFuncsDiffCap = some pf → ∀ s opts, pf s s opts = .ok []
  viewDefRefl : ∀ f, d.viewDefChangedCap = some f → ∀ v, f v v = false
  annotateEmpty : ∀ f, d.annotateCap = some f → ∀ opts, f [] opts = .ok ()

/-- The view key used by `findView`: views are identified by their
materialized kind together with their name. -/
abbrev viewKey (v : View) : Bool × String := (v.materialized, v.name)

/-- A well-formed index: every part carries a column or an expression
(in `schema.Index` each part holds a `C` or an `X`; a part with neither
is a malformed index that `partsChange` reports as changed even against
itself). -/
abbrev wfIndex (i : Index) : Prop :=
  ∀ p ∈ i.parts, (p.column.isSome || p.expr.isSome) = true

/-- A well-formed table: element names are unique per kind and every
index (including the primary key) is well-formed. -/
abbrev wfTable (t : Table) : Prop :=
  (t.columns.map Column.name).Nodup
  ∧ (t.indexes.map Index.name).Nodup
  ∧ (t.foreignKeys.map ForeignKey.symbol).Nodup
  ∧ (t.triggers.map Trigger.name).Nodup
  ∧ (∀ i ∈ t.indexes, wfIndex i)
  ∧ (∀ pk ∈ t.primaryKey.toList, wfIndex pk)

/-- A well-formed view. -/
abbrev wfView (v : View) : Prop :=
  (v.columns.map Column.name).Nodup
  ∧ (v.indexes.map Index.name).Nodup
  ∧ (v.triggers.map Trigger.name).Nodup
  ∧ (∀ i ∈ v.indexes, wfIndex i)

/-- A well-formed schema: table names are unique, view keys are unique,
and every table and view is well-formed. -/
abbrev wfSchema (s : Schema) : Prop :=
  (s.tables.map Table.name).Nodup
  ∧ (s.views.map viewKey).Nodup
  ∧ (∀ t ∈ s.tables, wfTable t)
  ∧ (∀ v ∈ s.views, wfView v)

/-- A small concrete schema: one table with a column, a primary key, a
secondary index, a foreign key and a trigger, plus one view. -/
def sampleSchema : Schema :=
  { name := "public"
    tables := [{ name := "users"
                 columns := [⟨"id", []⟩, ⟨"org", []⟩]
                 primaryKey := some ⟨"users_pkey", true,
                   [⟨1, false, some "id", none, []⟩], []⟩
                 indexes := [⟨"users_org_idx", false,
                   [⟨1, false, some "org", none, []⟩,
                    ⟨2, false, none, some "lower(org)", []⟩], []⟩]
                 foreignKeys := [⟨"users_org_fkey", ["org"], "orgs", ["id"],
                   "NO ACTION", "CASCADE", []⟩]
                 triggers := [⟨"audit_users", "INSERT INTO audit VALUES (1)"⟩]
                 attrs := [] }]
    views := [{ name := "active_users"
                defn := "SELECT id FROM users"
                materialized := false
                columns := [⟨"id", []⟩]
                indexes := []
                triggers := []
                attrs := [] }]
    attrs := [] }

end Sqlx

end Atlas

open Atlas

namespace Atlas.Sqlx

/-- Options with no skip policy keep every change. -/
theorem keep_none' (cs : List Change) : DiffOptions.none'.keep cs = cs := by
  simp [DiffOptions.keep, DiffOptions.none']

end Atlas.Sqlx

/-! ## Theorems for the claims -/

section PkDiffClaims

open Atlas.Sqlx

/-- C7: in primary-key diffing with both primary keys present, every
`ModifyPrimaryKey` emitted by `pkDiff` carries the change kind computed by
`indexChange` with the `Unique` bit masked out (in particular its `unique`
bit is never set); and when the masked kind is `NoChange`, both constraint
names are non-empty and differ, and the driver supports `RenameConstraint`
(a driver without a `ChangeSupporter` supports everything), a
`RenameConstraint` is emitted instead of a `ModifyPrimaryKey`. -/
theorem C7_pk_mask_and_rename (d : DiffDriver) (fromT toT : Table)
    (pk1 pk2 : Index)
    (h1 : fromT.primaryKey = some pk1) (h2 : toT.primaryKey = some pk2) :
    (∀ i1 i2 ch, Change.modifyPrimaryKey i1 i2 ch ∈
        pkDiff d fromT toT DiffOptions.none' →
      ch = (indexChange d pk1 pk2).maskUnique ∧ ch.unique = false)
    ∧ ((indexChange d pk1 pk2).maskUnique = ChangeKind.noChange →
       (∀ f, d.supportChangeCap = some f → f (.renameConstraint pk1 pk2) = true) →
       pk1.name ≠ "" → pk2.name ≠ "" → pk1.name ≠ pk2.name →
       pkDiff d fromT toT DiffOptions.none' = [Change.renameConstraint pk1 pk2]) := by
  unfold pkDiff
  rw [h1, h2]
  constructor
  · intro i1 i2 ch hmem
    by_cases hm : (indexChange d pk1 pk2).maskUnique = ChangeKind.noChange
    · simp only [hm, bne_self_eq_false, Bool.false_eq_true, if_false, keep_none'] at hmem
      split at hmem
      · simp at hmem
      · simp at hmem
    · have hb : ((indexChange d pk1 pk2).maskUnique != ChangeKind.noChange) = true := by
        simpa using hm
      simp only [hb, if_true, keep_none', List.mem_singleton] at hmem
      cases hmem
      constructor
      · rfl
      · rfl
  · intro hm hsupp hn1 hn2 hne
    simp only [hm, bne_self_eq_false, Bool.false_eq_true, if_false, keep_none']
    have hcond : (match d.supportChangeCap with
        | none => true
        | some f => f (.renameConstraint pk1 pk2)) = true := by
      cases hc : d.supportChangeCap with
      | none => rfl
      | some f => exact hsupp f hc
    rw [hcond]
    simp [hn1, hn2, hne]

/-- C7 witness: primary keys differing only in their constraint name under
a driver without a change supporter yield a single rename. -/
theorem C7_pk_mask_and_rename_witness :
    pkDiff trivialDriver
      ⟨"t", [], some ⟨"a", false, [], []⟩, [], [], [], []⟩
      ⟨"t", [], some ⟨"b", false, [], []⟩, [], [], [], []⟩
      DiffOptions.none'
      = [Change.renameConstraint ⟨"a", false, [], []⟩ ⟨"b", false, [], []⟩] :=
  (C7_pk_mask_and_rename trivialDriver
      ⟨"t", [], some ⟨"a", false, [], []⟩, [], [], [], []⟩
      ⟨"t", [], some ⟨"b", false, [], []⟩, [], [], [], []⟩
      ⟨"a", false, [], []⟩ ⟨"b", false, [], []⟩ rfl rfl).2
    (by decide) (fun f hf => Option.noConfusion hf)
    (by decide) (by decide) (by decide)

/-- C10 (implicit): when the two primary keys differ only in their
constraint name — the masked change kind is `NoChange` — and the driver's
`ChangeSupporter` vetoes `RenameConstraint`, as the MySQL differ does,
`pkDiff` emits no change at all: the name difference is silently
ignored. -/
theorem C10_pk_rename_vetoed_silent (d : DiffDriver) (fromT toT : Table)
    (pk1 pk2 : Index) (f : Change → Bool)
    (h1 : fromT.primaryKey = some pk1) (h2 : toT.primaryKey = some pk2)
    (hmask : (indexChange d pk1 pk2).maskUnique = ChangeKind.noChange)
    (hcap : d.supportChangeCap = some f)
    (hveto : f (Change.renameConstraint pk1 pk2) = false)
    (hn1 : pk1.name ≠ "") (hn2 : pk2.name ≠ "") (hne : pk1.name ≠ pk2.name) :
    pkDiff d fromT toT DiffOptions.none' = [] := by
  unfold pkDiff
  rw [h1, h2]
  simp only [hmask, bne_self_eq_false, Bool.false_eq_true, if_false, hcap, hveto]
  simp

/-- C10 witness: the MySQL-like driver silently drops the primary-key
rename. -/
theorem C10_pk_rename_vetoed_silent_witness :
    pkDiff mysqlLikeDriver
      ⟨"t", [], some ⟨"a", false, [], []⟩, [], [], [], []⟩
      ⟨"t", [], some ⟨"b", false, [], []⟩, [], [], [], []⟩
      DiffOptions.none' = [] :=
  C10_pk_rename_vetoed_silent mysqlLikeDriver
    ⟨"t", [], some ⟨"a", false, [], []⟩, [], [], [], []⟩
    ⟨"t", [], some ⟨"b", false, [], []⟩, [], [], [], []⟩
    ⟨"a", false, [], []⟩ ⟨"b", false, [], []⟩ Mysql.mysqlSupportChange
    rfl rfl (by decide) rfl rfl (by decide) (by decide) (by decide)

end PkDiffClaims

section LockClaims

open Atlas.Sqlite

/-- C8: the file lock of the SQLite driver is governed by the stored
expiration: a lock file with an expiration still in the future means the
lock is held and acquisition fails; a stored expiration at or before now
is stale and the lock is reclaimed, writing the new expiration
`now + timeout`; an absent lock file acquires directly; and the returned
unlock function removes the lock file. -/
theorem C8_file_lock_expiration (expires now timeout : Int) :
    (now < expires →
      Atlas.Sqlite.lock (some expires) now timeout =
        .error "sql/sqlite: lock already taken")
    ∧ (expires ≤ now →
      Atlas.Sqlite.lock (some expires) now timeout = .ok (some (now + timeout)))
    ∧ Atlas.Sqlite.lock none now timeout = .ok (some (now + timeout))
    ∧ (∀ st, Atlas.Sqlite.unlock st = none) := by
  refine ⟨fun h => ?_, fun h => ?_, rfl, fun _ => rfl⟩
  · simp [Atlas.Sqlite.lock, h]
  · simp [Atlas.Sqlite.lock, acquireLock, not_lt.mpr h]

/-- C8 witness: a held lock at expiration 10 seen at time 5 is refused; a
stale lock at expiration 10 seen at time 20 with timeout 3 is reclaimed
with the new expiration 23; unlocking removes the file. -/
theorem C8_file_lock_expiration_witness :
    Atlas.Sqlite.lock (some 10) 5 3 = .error "sql/sqlite: lock already taken"
    ∧ Atlas.Sqlite.lock (some 10) 20 3 = .ok (some 23)
    ∧ Atlas.Sqlite.unlock (some 23) = none :=
  ⟨(C8_file_lock_expiration 10 5 3).1 (by decide),
   (C8_file_lock_expiration 10 20 3).2.1 (by decide),
   (C8_file_lock_expiration 10 20 3).2.2.2 (some 23)⟩

end LockClaims

section HookClaims

open Atlas.Sqlclient

/-- C9 counterexample: a hook that performs a nested `Open` with no hooks
configured succeeds — the whole open returns `ok` instead of the dedicated
error, because the nested-open guard lives in `afterOpen`, which only runs
when the nested call itself carries hooks.  This falsifies the claim that
for every hook configuration a nested open fails. -/
theorem C9_counterexample_hookfree_nested_open :
    Atlas.Sqlclient.openURL false [fun ctx => Atlas.Sqlclient.openURL ctx []] =
      Except.ok () := rfl

/-- C9 (amended): hooks run with the context marker set, and a nested
`Open` or transaction begin issued from within a hook fails with the
dedicated error provided the nested call itself has hooks configured; a
hook-free nested call is not intercepted. -/
theorem C9_nested_calls_fail_with_hooks (hooks : List HookFn) (hne : hooks ≠ []) :
    (∀ ctx, hookCtx ctx = true)
    ∧ Atlas.Sqlclient.openURL true hooks =
        .error "sql/sqlclient: cannot open a connection inside a hook"
    ∧ Atlas.Sqlclient.clientTx true hooks =
        .error "sql/sqlclient: cannot begin a transaction inside a hook" := by
  have hlen : hooks.length > 0 := by
    cases hooks with
    | nil => exact absurd rfl hne
    | cons h t => simp
  refine ⟨fun ctx => ?_, ?_, ?_⟩
  · cases ctx <;> rfl
  · simp [Atlas.Sqlclient.openURL, afterOpen, hlen]
  · simp [Atlas.Sqlclient.clientTx, afterBegin, hlen]

/-- C9 witness: with one hook configured, a nested open and a nested
transaction begin inside a hook both fail with the dedicated errors. -/
theorem C9_nested_calls_fail_with_hooks_witness :
    Atlas.Sqlclient.openURL true [fun _ => .ok ()] =
      .error "sql/sqlclient: cannot open a connection inside a hook"
    ∧ Atlas.Sqlclient.clientTx true [fun _ => .ok ()] =
      .error "sql/sqlclient: cannot begin a transaction inside a hook" :=
  ⟨(C9_nested_calls_fail_with_hooks [fun _ => .ok ()] (by simp)).2.1,
   (C9_nested_calls_fail_with_hooks [fun _ => .ok ()] (by simp)).2.2⟩

end HookClaims

section PartsClaims

open Atlas.Sqlx

/-- The element-wise loop of `partsChange` over expression-part lists
returns `NoChange` exactly when every position agrees on the raw string or
on the `from`-side being the wrapped `to`-side. -/
theorem partsChangeAux_noChange_iff (d : DiffDriver) (fI tI : Index)
    (renames : String → String)
    (hattr : ∀ i, d.indexPartAttrChanged fI tI i = false) :
    ∀ (l1 l2 : List IndexPart) (i : Nat), l1.length = l2.length →
    (∀ p ∈ l1.zip l2, p.1.desc = p.2.desc ∧ p.1.column = none ∧ p.2.column = none
        ∧ p.1.expr.isSome ∧ p.2.expr.isSome) →
    (partsChangeAux d fI tI renames l1 l2 i = ChangeKind.noChange ↔
      ∀ p ∈ l1.zip l2, p.1.expr.getD "" = p.2.expr.getD ""
        ∨ p.1.expr.getD "" = MayWrap (p.2.expr.getD "")) := by
  intro l1
  induction l1 with
  | nil =>
    intro l2 i hlen _
    cases l2 with
    | nil => simp [partsChangeAux]
    | cons q qs => simp at hlen
  | cons p ps ih =>
    intro l2 i hlen hpairs
    cases l2 with
    | nil => simp at hlen
    | cons q qs =>
      have hhead := hpairs (p, q) (by simp)
      have hdesc : p.desc = q.desc := hhead.1
      have hc1 : p.column = none := hhead.2.1
      have hc2 : q.column = none := hhead.2.2.1
      have he1 : p.expr.isSome = true := hhead.2.2.2.1
      have he2 : q.expr.isSome = true := hhead.2.2.2.2
      obtain ⟨x1, hx1⟩ := Option.isSome_iff_exists.mp he1
      obtain ⟨x2, hx2⟩ := Option.isSome_iff_exists.mp he2
      have htail : ∀ r ∈ ps.zip qs, r.1.desc = r.2.desc ∧ r.1.column = none
          ∧ r.2.column = none ∧ r.1.expr.isSome ∧ r.2.expr.isSome := by
        intro r hr
        exact hpairs r (by simp [hr])
      have hlen2 : ps.length = qs.length := by simpa using hlen
      have hrec := ih qs (i + 1) hlen2 htail
      simp only [partsChangeAux, hdesc, bne_self_eq_false, hattr i, Bool.or_self,
        Bool.false_eq_true, if_false, hc1, hc2, hx1, hx2]
      by_cases hcmp : x1 ≠ x2 ∧ x1 ≠ MayWrap x2
      · have hb : (x1 != x2 && x1 != MayWrap x2) = true := by
          simp [bne_iff_ne, hcmp.1, hcmp.2]
        rw [hb]
        simp only [if_true]
        constructor
        · intro h
          exact absurd h (by decide)
        · intro h
          have hthis := h (p, q) (by simp)
          simp only [hx1, hx2, Option.getD_some] at hthis
          rcases hthis with h1 | h1
          · exact absurd h1 hcmp.1
          · exact absurd h1 hcmp.2
      · have hb : (x1 != x2 && x1 != MayWrap x2) = false := by
          rcases not_and_or.mp hcmp with h1 | h1
          · simp [bne_iff_ne, not_not.mp h1]
          · simp [bne_iff_ne, not_not.mp h1, Bool.and_comm]
        rw [hb]
        simp only [Bool.false_eq_true, if_false]
        rw [hrec]
        constructor
        · intro h r hr
          rcases List.mem_cons.mp hr with h1 | h1
          · subst h1
            simp only [hx1, hx2, Option.getD_some]
            rcases not_and_or.mp hcmp with hh | hh
            · exact Or.inl (not_not.mp hh)
            · exact Or.inr (not_not.mp hh)
          · exact h r h1
        · intro h r hr
          exact h r (by simp [hr])

/-- C6 (amended): for two indexes with `SeqNo`-sorted parts of equal
length, agreeing on the `Desc` flag at each position, with no part
attribute reported changed, and carrying expression parts on both sides
at every position, `partsChange` returns `NoChange` iff at every position
the raw strings are equal or the `from`-side string equals the
`MayWrap`-wrapped `to`-side string.  Wrap-tolerance holds in this one
direction only: the symmetric direction of the original claim fails (see
the counterexample). -/
theorem C6_parts_wrap_one_direction (d : DiffDriver) (fromI toI : Index)
    (renames : String → String)
    (hs1 : sortParts fromI.parts = fromI.parts)
    (hs2 : sortParts toI.parts = toI.parts)
    (hlen : fromI.parts.length = toI.parts.length)
    (hattr : ∀ i, d.indexPartAttrChanged fromI toI i = false)
    (hpairs : ∀ p ∈ fromI.parts.zip toI.parts,
      p.1.desc = p.2.desc ∧ p.1.column = none ∧ p.2.column = none
        ∧ p.1.expr.isSome ∧ p.2.expr.isSome) :
    partsChange d fromI toI renames = ChangeKind.noChange ↔
      ∀ p ∈ fromI.parts.zip toI.parts,
        p.1.expr.getD "" = p.2.expr.getD ""
          ∨ p.1.expr.getD "" = MayWrap (p.2.expr.getD "") := by
  have hb : (fromI.parts.length != toI.parts.length) = false := by
    simp [hlen]
  unfold partsChange
  simp only [hb, Bool.false_eq_true, if_false, hs1, hs2]
  exact partsChangeAux_noChange_iff d fromI toI renames hattr fromI.parts toI.parts 0
    hlen hpairs

/-- C6 counterexample: two single-part expression indexes whose
expressions wrap to each other only in the direction the code does not
check — the `to`-side `"(a+1)"` is the `MayWrap` of the `from`-side
`"a+1"` — satisfy every hypothesis of the claim (same number of parts,
equal `Desc`, no part-attribute change), yet `partsChange` reports
`ChangeParts` where the claim, with wrap-equality in either direction,
predicts `NoChange`. -/
theorem C6_counterexample_wrap_direction :
    MayWrap "a+1" = "(a+1)"
    ∧ partsChange trivialDriver
        ⟨"i", false, [⟨1, false, none, some "a+1", []⟩], []⟩
        ⟨"i", false, [⟨1, false, none, some "(a+1)", []⟩], []⟩
        nilRenames = ChangeKind.changeParts := by
  exact ⟨by decide, by decide⟩

/-- C6 witness: in the accepted direction — the `from`-side `"(a+1)"` is
the `MayWrap` of the `to`-side `"a+1"` — the same pair of indexes
compares equal. -/
theorem C6_parts_wrap_one_direction_witness :
    partsChange trivialDriver
      ⟨"i", false, [⟨1, false, none, some "(a+1)", []⟩], []⟩
      ⟨"i", false, [⟨1, false, none, some "a+1", []⟩], []⟩
      nilRenames = ChangeKind.noChange :=
  (C6_parts_wrap_one_direction trivialDriver
      ⟨"i", false, [⟨1, false, none, some "(a+1)", []⟩], []⟩
      ⟨"i", false, [⟨1, false, none, some "a+1", []⟩], []⟩
      nilRenames rfl rfl rfl (fun _ => rfl) (by decide)).mpr (by decide)

end PartsClaims


section ExecutorClaims

open Atlas.Migrate

/-- `lexLt` is irreflexive. -/
theorem lexLt_self : ∀ l : List Char, lexLt l l = false := by
  intro l
  induction l with
  | nil => rfl
  | cons c cs ih => simp [lexLt, ih]

/-- `strLt` is irreflexive. -/
theorem strLt_self (s : String) : strLt s s = false := by
  simp [strLt, lexLt_self]

/-- `runStmts` over statements that all succeed executes all of them and
completes the revision: `Applied = Total`, the error fields cleared, the
partial hashes cleared, the Execute bit set. -/
theorem runStmts_all_ok (exec : StmtExec) (rev : Revision) :
    ∀ (l : List String) (i : Nat), (∀ s ∈ l, exec s = none) →
    runStmts exec rev l i = (l, doneRev rev, none) := by
  intro l
  induction l with
  | nil => intro i _; rfl
  | cons s rest ih =>
    intro i h
    have hs : exec s = none := h s (by simp)
    simp only [runStmts, hs]
    rw [ih (i + 1) (fun x hx => h x (by simp [hx]))]

/-- `runStmts` over `pre ++ sk :: rest` where every statement of `pre`
succeeds and `sk` fails executes exactly `pre` and records the failure:
`Applied` counts the `i` already-applied statements plus `pre`. -/
theorem runStmts_fail (exec : StmtExec) (rev : Revision) (sk msg : String)
    (hk : exec sk = some msg) :
    ∀ (pre rest : List String) (i : Nat), (∀ s ∈ pre, exec s = none) →
    runStmts exec rev (pre ++ sk :: rest) i =
      (pre, failedRev rev (i + pre.length) msg sk, some (.stmtError sk msg)) := by
  intro pre
  induction pre with
  | nil =>
    intro rest i _
    simp only [List.nil_append, runStmts, hk, failedRev, List.length_nil, Nat.add_zero]
  | cons s pre ih =>
    intro rest i h
    have hs : exec s = none := h s (by simp)
    simp only [List.cons_append, runStmts, hs, List.append_eq]
    rw [ih rest (i + 1) (fun x hx => h x (by simp [hx]))]
    have harith : i + 1 + pre.length = i + (pre.length + 1) := by omega
    simp only [failedRev, List.length_cons, harith]

/-- A fresh file whose driver fails at statement `sk` after `pre`
succeeds executes exactly `pre` and leaves the partial revision in the
store. -/
theorem execFile_fresh_fail (exec : StmtExec) (op : String) (f : MigFile)
    (pre post : List String) (sk msg : String)
    (hstmts : f.stmts = pre ++ sk :: post)
    (hpre : ∀ s ∈ pre, exec s = none) (hk : exec sk = some msg) :
    execFile exec op [] f =
      (pre, [failedRev (freshRevFor op f) pre.length msg sk],
       some (.stmtError sk msg)) := by
  have hrun : runStmts exec (freshRevFor op f) f.stmts 0
      = (pre, failedRev (freshRevFor op f) pre.length msg sk,
         some (.stmtError sk msg)) := by
    rw [hstmts, runStmts_fail exec (freshRevFor op f) sk msg hk pre post 0 hpre]
    simp only [Nat.zero_add]
  simp only [freshRevFor] at hrun
  simp only [execFile, readRevision, List.find?_nil]
  rw [hrun]
  simp [writeRevision, failedRev, freshRevFor]

/-- Resuming an unchanged partially-applied file with a driver for which
the remaining statements succeed executes exactly the statements from the
resume index and completes the revision. -/
theorem execFile_resume_ok (exec : StmtExec) (op : String) (f : MigFile)
    (rev : Revision)
    (hver : rev.version = f.version)
    (happ : rev.applied < rev.total)
    (hhash : rev.partialHashes = f.stmts.map stmtHash)
    (h2 : ∀ s ∈ f.stmts.drop rev.applied, exec s = none) :
    execFile exec op [rev] f =
      (f.stmts.drop rev.applied,
       [doneRev { rev with total := f.stmts.length,
                           partialHashes := f.stmts.map stmtHash }],
       none) := by
  have hrun := runStmts_all_ok exec
    { rev with total := f.stmts.length, partialHashes := f.stmts.map stmtHash }
    (f.stmts.drop rev.applied) rev.applied h2
  simp only [execFile, readRevision]
  have hfind : List.find? (fun r => r.version == f.version) [rev] = some rev := by
    simp [List.find?, hver]
  rw [hfind]
  simp only [happ, if_true]
  have hmatch : ((f.stmts.map stmtHash).take rev.applied ==
      rev.partialHashes.take rev.applied) = true := by
    rw [hhash]
    simp
  rw [hmatch]
  simp only [if_true]
  rw [hrun]
  simp [writeRevision, doneRev, hver]

/-- A single-file directory with an empty revision store has exactly that
file pending. -/
theorem pending_single_fresh (f : MigFile) :
    pendingFiles [f] [] ExecOrder.linear = .ok [f] := rfl

/-- A single-file directory whose file has a partial revision has that
file pending again. -/
theorem pending_single_resuming (f : MigFile) (rev : Revision)
    (hver : rev.version = f.version) (happ : rev.applied < rev.total) :
    pendingFiles [f] [rev] ExecOrder.linear = .ok [f] := by
  have happly : isApplied [rev] f = false := by
    unfold isApplied readRevision
    rw [List.find?_cons_of_pos _ (by simp [hver])]
    simp [Nat.ne_of_lt happ]
  have hooo : isOutOfOrder [rev] f = false := by
    simp [isOutOfOrder, maxVersion, hver, strLt_self]
  simp [pendingFiles, sortFiles, insertFile, fromLastCheckpoint, happly, hooo]

/-- C2: running `ExecuteN` on a file whose statements are
`pre ++ sk :: post` — N = `pre.length + 1 + post.length` statements,
failing at statement k = `pre.length + 1` (so `Applied = k - 1 =
pre.length`) — executes exactly `pre`, records the revision
`{Applied = k-1, Total = N, Error = msg, ErrorStmt = sk}` with the
partial hashes preserved; a subsequent `ExecuteN` run with the file
unchanged and the remaining statements succeeding executes exactly
`sk :: post` (statements k..N), after which the revision has
`Applied = Total`, an empty error and cleared partial hashes
(`doneRev (freshRevFor op f)` spells exactly that revision). -/
theorem C2_resume_executes_remaining
    (exec1 exec2 : StmtExec) (op : String) (f : MigFile)
    (pre post : List String) (sk msg : String)
    (hstmts : f.stmts = pre ++ sk :: post)
    (hpre : ∀ s ∈ pre, exec1 s = none) (hk : exec1 sk = some msg)
    (h2 : ∀ s ∈ sk :: post, exec2 s = none) :
    executeN exec1 op [f] [] ExecOrder.linear 1 =
      (pre, [failedRev (freshRevFor op f) pre.length msg sk],
       some (.stmtError sk msg))
    ∧ executeN exec2 op [f] [failedRev (freshRevFor op f) pre.length msg sk]
        ExecOrder.linear 1 =
      (sk :: post, [doneRev (freshRevFor op f)], none) := by
  have hfail := execFile_fresh_fail exec1 op f pre post sk msg hstmts hpre hk
  have hdrop : f.stmts.drop pre.length = sk :: post := by
    rw [hstmts]
    exact List.drop_left pre (sk :: post)
  constructor
  · unfold executeN
    rw [pending_single_fresh f]
    simp only [execFiles]
    rw [hfail]
  · have hresume := execFile_resume_ok exec2 op f
      (failedRev (freshRevFor op f) pre.length msg sk)
      rfl
      (by simp only [failedRev, freshRevFor]; rw [hstmts]; simp)
      rfl
      (by intro s hs
          apply h2
          rw [show (failedRev (freshRevFor op f) pre.length msg sk).applied = pre.length
            from rfl] at hs
          rw [hdrop] at hs
          exact hs)
    unfold executeN
    rw [pending_single_resuming f (failedRev (freshRevFor op f) pre.length msg sk) rfl
      (by simp only [failedRev, freshRevFor]; rw [hstmts]; simp)]
    simp only [execFiles]
    rw [hresume]
    rw [show (failedRev (freshRevFor op f) pre.length msg sk).applied = pre.length
      from rfl, hdrop]
    simp [doneRev, failedRev, freshRevFor]

/-- C2 witness: a three-statement file failing at the second statement
executes the first; the retry executes exactly statements 2..3 and
completes the revision. -/
theorem C2_resume_executes_remaining_witness :
    executeN (fun s => if s == "S2;" then some "boom" else none) "op"
        [⟨"1_x.sql", ["S1;", "S2;", "S3;"], false⟩] [] ExecOrder.linear 1 =
      (["S1;"],
       [failedRev (freshRevFor "op" ⟨"1_x.sql", ["S1;", "S2;", "S3;"], false⟩) 1 "boom" "S2;"],
       some (.stmtError "S2;" "boom"))
    ∧ executeN (fun _ => none) "op" [⟨"1_x.sql", ["S1;", "S2;", "S3;"], false⟩]
        [failedRev (freshRevFor "op" ⟨"1_x.sql", ["S1;", "S2;", "S3;"], false⟩) 1 "boom" "S2;"]
        ExecOrder.linear 1 =
      (["S2;", "S3;"],
       [doneRev (freshRevFor "op" ⟨"1_x.sql", ["S1;", "S2;", "S3;"], false⟩)],
       none) := by
  have h := C2_resume_executes_remaining
    (fun s => if s == "S2;" then some "boom" else none) (fun _ => none) "op"
    ⟨"1_x.sql", ["S1;", "S2;", "S3;"], false⟩
    ["S1;"] ["S3;"] "S2;" "boom" rfl (by decide) (by decide) (by decide)
  exact h

/-- C3: a partially-applied migration file edited so that its first
`Applied` statements no longer hash-match the stored partial hashes makes
the per-file execution fail with `HistoryChanged`, executing no
statements and leaving the revision store untouched; when the file is
otherwise next in line, the whole `ExecuteN` run returns the same error
with nothing executed. -/
theorem C3_history_changed_blocks_execution
    (exec : StmtExec) (op : String) (f : MigFile) (revs : List Revision)
    (rev : Revision)
    (hread : readRevision revs f.version = some rev)
    (hpartway : rev.applied < rev.total)
    (hmismatch : ((f.stmts.map stmtHash).take rev.applied ==
        rev.partialHashes.take rev.applied) = false) :
    execFile exec op revs f = ([], revs, some (.historyChanged f.name))
    ∧ (∀ hooo : isOutOfOrder revs f = false,
        executeN exec op [f] revs ExecOrder.linear 1 =
          ([], revs, some (.historyChanged f.name))) := by
  have hexec : execFile exec op revs f = ([], revs, some (.historyChanged f.name)) := by
    unfold execFile
    rw [hread]
    simp only [hpartway, if_true, hmismatch, Bool.false_eq_true, if_false]
  refine ⟨hexec, fun hooo => ?_⟩
  have happly : isApplied revs f = false := by
    unfold isApplied
    rw [hread]
    simp [Nat.ne_of_lt hpartway]
  unfold executeN
  have hpend : pendingFiles [f] revs ExecOrder.linear = .ok [f] := by
    simp [pendingFiles, sortFiles, insertFile, fromLastCheckpoint, happly, hooo]
  rw [hpend]
  simp only [execFiles]
  rw [hexec]

/-- C3 witness: a two-statement file with one statement applied whose
stored partial hash no longer matches is rejected with `HistoryChanged`
and nothing executes. -/
theorem C3_history_changed_blocks_execution_witness :
    execFile (fun _ => none) "op" [⟨"1", "", RevisionType.zero, 1, 2, "", "", "",
        ["EDITED;"], "op"⟩] ⟨"1_x.sql", ["A;", "B;"], false⟩ =
      ([], [⟨"1", "", RevisionType.zero, 1, 2, "", "", "", ["EDITED;"], "op"⟩],
       some (.historyChanged "1_x.sql"))
    ∧ executeN (fun _ => none) "op" [⟨"1_x.sql", ["A;", "B;"], false⟩]
        [⟨"1", "", RevisionType.zero, 1, 2, "", "", "", ["EDITED;"], "op"⟩]
        ExecOrder.linear 1 =
      ([], [⟨"1", "", RevisionType.zero, 1, 2, "", "", "", ["EDITED;"], "op"⟩],
       some (.historyChanged "1_x.sql")) := by
  have h := C3_history_changed_blocks_execution (fun _ => none) "op"
    ⟨"1_x.sql", ["A;", "B;"], false⟩
    [⟨"1", "", RevisionType.zero, 1, 2, "", "", "", ["EDITED;"], "op"⟩]
    ⟨"1", "", RevisionType.zero, 1, 2, "", "", "", ["EDITED;"], "op"⟩
    (by decide) (by decide) (by decide)
  exact ⟨h.1, h.2 (by decide)⟩

/-- `Char.toNat` is injective. -/
theorem char_toNat_inj {a b : Char} (h : a.toNat = b.toNat) : a = b :=
  Char.ext (UInt32.ext h)

/-- The cons case of `lexLt`, spelled as a disjunction. -/
theorem lexLt_cons_iff (x y : Char) (xs ys : List Char) :
    lexLt (x :: xs) (y :: ys) = true ↔
      x.toNat < y.toNat ∨ (x.toNat = y.toNat ∧ lexLt xs ys = true) := by
  by_cases h1 : x.toNat < y.toNat
  · simp [lexLt, h1]
  · by_cases h2 : x.toNat = y.toNat
    · simp [lexLt, h1, h2]
    · simp [lexLt, h1, h2]

/-- `lexLt` is transitive. -/
theorem lexLt_trans : ∀ a b c : List Char,
    lexLt a b = true → lexLt b c = true → lexLt a c = true := by
  intro a
  induction a with
  | nil =>
    intro b c h1 h2
    cases b with
    | nil => simp [lexLt] at h1
    | cons y ys =>
      cases c with
      | nil => simp [lexLt] at h2
      | cons z zs => simp [lexLt]
  | cons x xs ih =>
    intro b c h1 h2
    cases b with
    | nil => simp [lexLt] at h1
    | cons y ys =>
      cases c with
      | nil => simp [lexLt] at h2
      | cons z zs =>
        rw [lexLt_cons_iff] at h1 h2 ⊢
        rcases h1 with h1 | ⟨e1, t1⟩
        · rcases h2 with h2 | ⟨e2, t2⟩
          · exact Or.inl (Nat.lt_trans h1 h2)
          · exact Or.inl (e2 ▸ h1)
        · rcases h2 with h2 | ⟨e2, t2⟩
          · exact Or.inl (e1 ▸ h2)
          · exact Or.inr ⟨e1.trans e2, ih ys zs t1 t2⟩

/-- `lexLt` is total up to equality. -/
theorem lexLt_total : ∀ a b : List Char,
    lexLt a b = false → lexLt b a = true ∨ a = b := by
  intro a
  induction a with
  | nil =>
    intro b h
    cases b with
    | nil => exact Or.inr rfl
    | cons y ys => simp [lexLt] at h
  | cons x xs ih =>
    intro b h
    cases b with
    | nil => exact Or.inl (by simp [lexLt])
    | cons y ys =>
      by_cases h1 : x.toNat < y.toNat
      · have hcontra : lexLt (x :: xs) (y :: ys) = true := by
          rw [lexLt_cons_iff]
          exact Or.inl h1
        rw [h] at hcontra
        exact absurd hcontra (by simp)
      · by_cases h2 : x.toNat = y.toNat
        · have hx : x = y := char_toNat_inj h2
          have ht : lexLt xs ys = false := by
            simpa [lexLt, h1, h2] using h
          rcases ih ys ht with h3 | h3
          · refine Or.inl ?_
            rw [lexLt_cons_iff]
            exact Or.inr ⟨h2.symm, h3⟩
          · exact Or.inr (by rw [hx, h3])
        · have h3 : y.toNat < x.toNat := by omega
          refine Or.inl ?_
          rw [lexLt_cons_iff]
          exact Or.inl h3
open Atlas.Migrate

theorem string_toList_inj {a b : String} (h : a.toList = b.toList) : a = b := by
  cases a; cases b; exact congrArg String.mk (by simpa [String.toList] using h)

theorem strLt_trans {a b c : String} (h1 : strLt a b = true) (h2 : strLt b c = true) :
    strLt a c = true :=
  lexLt_trans a.toList b.toList c.toList h1 h2

theorem strLt_total {a b : String} (h : strLt a b = false) :
    strLt b a = true ∨ a = b := by
  rcases lexLt_total a.toList b.toList h with h2 | h2
  · exact Or.inl h2
  · exact Or.inr (string_toList_inj h2)

theorem strLe_trans {a b c : String} (h1 : strLe a b = true) (h2 : strLe b c = true) :
    strLe a c = true := by
  unfold strLe at h1 h2 ⊢
  rcases Bool.or_eq_true_iff.mp h1 with hl1 | he1
  · rcases Bool.or_eq_true_iff.mp h2 with hl2 | he2
    · exact Bool.or_eq_true_iff.mpr (Or.inl (strLt_trans hl1 hl2))
    · have : b = c := by simpa [beq_iff_eq] using he2
      exact Bool.or_eq_true_iff.mpr (Or.inl (this ▸ hl1))
  · have hab : a = b := by simpa [beq_iff_eq] using he1
    exact hab ▸ h2

theorem fileLe_trans {a b c : Atlas.Migrate.MigFile}
    (h1 : Atlas.Migrate.fileLe a b = true) (h2 : Atlas.Migrate.fileLe b c = true) :
    Atlas.Migrate.fileLe a c = true := by
  unfold Atlas.Migrate.fileLe at h1 h2 ⊢
  rcases Bool.or_eq_true_iff.mp h1 with hv1 | hn1
  · rcases Bool.or_eq_true_iff.mp h2 with hv2 | hn2
    · exact Bool.or_eq_true_iff.mpr (Or.inl (strLt_trans hv1 hv2))
    · have heq : b.version = c.version := by
        simpa [beq_iff_eq] using (Bool.and_eq_true_iff.mp hn2).1
      exact Bool.or_eq_true_iff.mpr (Or.inl (heq ▸ hv1))
  · obtain ⟨he1, hl1⟩ := Bool.and_eq_true_iff.mp hn1
    have heq1 : a.version = b.version := by simpa [beq_iff_eq] using he1
    rcases Bool.or_eq_true_iff.mp h2 with hv2 | hn2
    · exact Bool.or_eq_true_iff.mpr (Or.inl (heq1 ▸ hv2))
    · obtain ⟨he2, hl2⟩ := Bool.and_eq_true_iff.mp hn2
      have heq2 : b.version = c.version := by simpa [beq_iff_eq] using he2
      refine Bool.or_eq_true_iff.mpr (Or.inr (Bool.and_eq_true_iff.mpr ⟨?_, ?_⟩))
      · simp [beq_iff_eq, heq1, heq2]
      · exact strLe_trans hl1 hl2

theorem fileLe_total {a b : Atlas.Migrate.MigFile}
    (h : Atlas.Migrate.fileLe a b = false) : Atlas.Migrate.fileLe b a = true := by
  unfold Atlas.Migrate.fileLe at h ⊢
  rw [Bool.or_eq_false_iff] at h
  obtain ⟨hv, hn⟩ := h
  rcases strLt_total hv with h1 | h1
  · exact Bool.or_eq_true_iff.mpr (Or.inl h1)
  · rw [Bool.and_eq_false_iff] at hn
    rcases hn with hn | hn
    · exact absurd (by simp [h1]) (by simp [hn] : ¬(a.version == b.version) = true)
    · unfold Atlas.Migrate.strLe at hn
      rw [Bool.or_eq_false_iff] at hn
      obtain ⟨hln, hen⟩ := hn
      rcases strLt_total hln with h2 | h2
      · refine Bool.or_eq_true_iff.mpr (Or.inr (Bool.and_eq_true_iff.mpr ⟨?_, ?_⟩))
        · simp [beq_iff_eq, h1]
        · exact Bool.or_eq_true_iff.mpr (Or.inl h2)
      · exact absurd (by simp [h2]) (by simp [hen] : ¬(a.name == b.name) = true)

open Atlas.Migrate in
theorem insertFile_mem (f x : MigFile) : ∀ l : List MigFile,
    x ∈ insertFile f l ↔ x = f ∨ x ∈ l := by
  intro l
  induction l with
  | nil => simp [insertFile]
  | cons g rest ih =>
    by_cases h : fileLe f g = true
    · simp [insertFile, h]
    · have h' : fileLe f g = false := by simpa using h
      simp only [insertFile, h', Bool.false_eq_true, if_false, List.mem_cons, ih]
      tauto

open Atlas.Migrate in
theorem sortFiles_mem (x : MigFile) : ∀ l : List MigFile,
    x ∈ sortFiles l ↔ x ∈ l := by
  intro l
  induction l with
  | nil => simp [sortFiles]
  | cons g rest ih =>
    simp only [sortFiles, insertFile_mem, ih, List.mem_cons]

open Atlas.Migrate in
theorem insertFile_pairwise (f : MigFile) : ∀ l : List MigFile,
    l.Pairwise (fun a b => fileLe a b = true) →
    (insertFile f l).Pairwise (fun a b => fileLe a b = true) := by
  intro l
  induction l with
  | nil => intro _; simp [insertFile]
  | cons g rest ih =>
    intro h
    rw [List.pairwise_cons] at h
    obtain ⟨hg, hrest⟩ := h
    by_cases hle : fileLe f g = true
    · simp only [insertFile, hle, if_true]
      rw [List.pairwise_cons]
      refine ⟨?_, ?_⟩
      · intro y hy
        rcases List.mem_cons.mp hy with hy | hy
        · exact hy ▸ hle
        · exact fileLe_trans hle (hg y hy)
      · rw [List.pairwise_cons]
        exact ⟨hg, hrest⟩
    · have hle' : fileLe f g = false := by simpa using hle
      simp only [insertFile, hle', Bool.false_eq_true, if_false]
      rw [List.pairwise_cons]
      refine ⟨?_, ih hrest⟩
      intro y hy
      rcases (insertFile_mem f y rest).mp hy with hy | hy
      · subst hy
        exact fileLe_total hle'
      · exact hg y hy

open Atlas.Migrate in
theorem sortFiles_pairwise : ∀ l : List MigFile,
    (sortFiles l).Pairwise (fun a b => fileLe a b = true) := by
  intro l
  induction l with
  | nil => simp [sortFiles]
  | cons g rest ih => exact insertFile_pairwise g (sortFiles rest) ih

open Atlas.Migrate in
theorem fromLastCheckpoint_nocp : ∀ l : List MigFile,
    (∀ g ∈ l, g.checkpoint = false) → fromLastCheckpoint l = l := by
  intro l
  induction l with
  | nil => intro _; rfl
  | cons f rest ih =>
    intro h
    have hany : rest.any (fun g => g.checkpoint) = false := by
      rw [List.any_eq_false]
      intro g hg
      simp [h g (by simp [hg])]
    simp [fromLastCheckpoint, hany]

open Atlas.Migrate in
/-- C4: for every checkpoint-free directory with a pending (unapplied)
file whose version is strictly below the highest recorded revision
version: under `Linear` (the default) `Pending` returns a
history-non-linear error naming the offending file; under `LinearSkip`
the file is silently excluded from any returned pending set; under
`NonLinear` the file is returned as pending in a list sorted in lexical
(version) order. -/
theorem C4_exec_order_linearity (dir : List MigFile) (revs : List Revision)
    (f : MigFile) (vmax : String)
    (hnocp : ∀ g ∈ dir, g.checkpoint = false)
    (hf : f ∈ dir)
    (hunapplied : isApplied revs f = false)
    (hmax : maxVersion revs = some vmax)
    (hlt : strLt f.version vmax = true) :
    (∃ names, pendingFiles dir revs ExecOrder.linear =
        .error (.historyNonLinear names) ∧ f.name ∈ names)
    ∧ (∀ l, pendingFiles dir revs ExecOrder.linearSkip = .ok l → f ∉ l)
    ∧ (∃ l, pendingFiles dir revs ExecOrder.nonLinear = .ok l ∧ f ∈ l
        ∧ l.Pairwise (fun a b => fileLe a b = true)) := by
  have hcp : fromLastCheckpoint (sortFiles dir) = sortFiles dir :=
    fromLastCheckpoint_nocp (sortFiles dir)
      (fun g hg => hnocp g ((sortFiles_mem g dir).mp hg))
  have houtf : isOutOfOrder revs f = true := by
    simp [isOutOfOrder, hmax, hlt]
  have hfu : f ∈ (sortFiles dir).filter (fun g => !isApplied revs g) := by
    rw [List.mem_filter]
    exact ⟨(sortFiles_mem f dir).mpr hf, by simp [hunapplied]⟩
  refine ⟨?_, ?_, ?_⟩
  · -- Linear
    refine ⟨(((sortFiles dir).filter (fun g => !isApplied revs g)).filter
      (isOutOfOrder revs)).map (fun g => g.name), ?_, ?_⟩
    · unfold pendingFiles
      rw [hcp]
      have hbad : (((sortFiles dir).filter (fun g => !isApplied revs g)).filter
          (isOutOfOrder revs)).isEmpty = false := by
        rw [List.isEmpty_eq_false_iff_exists_mem]
        exact ⟨f, List.mem_filter.mpr ⟨hfu, houtf⟩⟩
      simp only [hbad, Bool.false_eq_true, if_false]
    · exact List.mem_map.mpr ⟨f, List.mem_filter.mpr ⟨hfu, houtf⟩, rfl⟩
  · -- LinearSkip
    intro l hl hmem
    unfold pendingFiles at hl
    rw [hcp] at hl
    by_cases hemp : (((sortFiles dir).filter (fun g => !isApplied revs g)).filter
        (fun g => !isOutOfOrder revs g)).isEmpty = true
    · simp only [hemp, if_true] at hl
      exact Except.noConfusion hl
    · have hemp' : (((sortFiles dir).filter (fun g => !isApplied revs g)).filter
          (fun g => !isOutOfOrder revs g)).isEmpty = false := by
        simpa using hemp
      simp only [hemp', Bool.false_eq_true, if_false] at hl
      cases hl
      have := (List.mem_filter.mp hmem).2
      rw [houtf] at this
      simp at this
  · -- NonLinear
    refine ⟨(sortFiles dir).filter (fun g => !isApplied revs g), ?_, hfu, ?_⟩
    · unfold pendingFiles
      rw [hcp]
      have hne : ((sortFiles dir).filter (fun g => !isApplied revs g)).isEmpty = false := by
        rw [List.isEmpty_eq_false_iff_exists_mem]
        exact ⟨f, hfu⟩
      simp only [hne, Bool.false_eq_true, if_false]
    · exact List.Pairwise.filter _ (sortFiles_pairwise dir)

open Atlas.Migrate in
/-- C4 witness: applied versions 1 < 2 < 3 and a new file `2.5.sql`:
non-linear error under Linear, excluded under LinearSkip, pending under
NonLinear. -/
theorem C4_exec_order_linearity_witness :
    (∃ names, pendingFiles
        [⟨"1.sql", [], false⟩, ⟨"2.sql", [], false⟩, ⟨"2.5.sql", [], false⟩,
         ⟨"3.sql", [], false⟩]
        [⟨"1", "", RevisionType.zero, 0, 0, "", "", "", [], ""⟩,
         ⟨"2", "", RevisionType.zero, 0, 0, "", "", "", [], ""⟩,
         ⟨"3", "", RevisionType.zero, 0, 0, "", "", "", [], ""⟩]
        ExecOrder.linear = .error (.historyNonLinear names)
      ∧ "2.5.sql" ∈ names)
    ∧ (∀ l, pendingFiles
        [⟨"1.sql", [], false⟩, ⟨"2.sql", [], false⟩, ⟨"2.5.sql", [], false⟩,
         ⟨"3.sql", [], false⟩]
        [⟨"1", "", RevisionType.zero, 0, 0, "", "", "", [], ""⟩,
         ⟨"2", "", RevisionType.zero, 0, 0, "", "", "", [], ""⟩,
         ⟨"3", "", RevisionType.zero, 0, 0, "", "", "", [], ""⟩]
        ExecOrder.linearSkip = .ok l → (⟨"2.5.sql", [], false⟩ : MigFile) ∉ l)
    ∧ (∃ l, pendingFiles
        [⟨"1.sql", [], false⟩, ⟨"2.sql", [], false⟩, ⟨"2.5.sql", [], false⟩,
         ⟨"3.sql", [], false⟩]
        [⟨"1", "", RevisionType.zero, 0, 0, "", "", "", [], ""⟩,
         ⟨"2", "", RevisionType.zero, 0, 0, "", "", "", [], ""⟩,
         ⟨"3", "", RevisionType.zero, 0, 0, "", "", "", [], ""⟩]
        ExecOrder.nonLinear = .ok l ∧ (⟨"2.5.sql", [], false⟩ : MigFile) ∈ l
      ∧ l.Pairwise (fun a b => fileLe a b = true)) :=
  C4_exec_order_linearity
    [⟨"1.sql", [], false⟩, ⟨"2.sql", [], false⟩, ⟨"2.5.sql", [], false⟩,
     ⟨"3.sql", [], false⟩]
    [⟨"1", "", RevisionType.zero, 0, 0, "", "", "", [], ""⟩,
     ⟨"2", "", RevisionType.zero, 0, 0, "", "", "", [], ""⟩,
     ⟨"3", "", RevisionType.zero, 0, 0, "", "", "", [], ""⟩]
    ⟨"2.5.sql", [], false⟩ "3" (by decide) (by decide) (by decide) (by decide)
    (by decide)

open Atlas.Migrate in
theorem takeWhile_all_append (p : Char → Bool) : ∀ (l1 l2 : List Char),
    (∀ c ∈ l1, p c = true) → (l1 ++ l2).takeWhile p = l1 ++ l2.takeWhile p := by
  intro l1
  induction l1 with
  | nil => intro l2 _; simp
  | cons c cs ih =>
    intro l2 h
    simp only [List.cons_append, List.takeWhile_cons, h c (by simp), if_true]
    rw [ih l2 (fun x hx => h x (by simp [hx]))]

open Atlas.Migrate in
theorem fromLastCheckpoint_last : ∀ (xs ys : List MigFile) (c : MigFile),
    c.checkpoint = true → (∀ g ∈ ys, g.checkpoint = false) →
    fromLastCheckpoint (xs ++ c :: ys) = c :: ys := by
  intro xs
  induction xs with
  | nil =>
    intro ys c hc hys
    have hany : ys.any (fun g => g.checkpoint) = false := by
      rw [List.any_eq_false]
      intro g hg
      simp [hys g hg]
    simp [fromLastCheckpoint, hany]
  | cons x xs ih =>
    intro ys c hc hys
    have hany : (xs ++ c :: ys).any (fun g => g.checkpoint) = true := by
      rw [List.any_eq_true]
      exact ⟨c, by simp, hc⟩
    simp [fromLastCheckpoint, hany, ih ys c hc hys]

open Atlas.Migrate in
theorem writeRevision_mem (revs : List Revision) (r x : Revision)
    (hx : x ∈ writeRevision revs r) : x ∈ revs ∨ x = r := by
  unfold writeRevision at hx
  by_cases h : (revs.find? (fun y => y.version == r.version)).isSome = true
  · simp only [h, if_true] at hx
    obtain ⟨y, hy, hxy⟩ := List.mem_map.mp hx
    by_cases hv : (y.version == r.version) = true
    · rw [hv] at hxy
      simp at hxy
      exact Or.inr hxy.symm
    · rw [Bool.not_eq_true] at hv
      rw [hv] at hxy
      simp at hxy
      exact Or.inl (hxy ▸ hy)
  · have h' : (revs.find? (fun y => y.version == r.version)).isSome = false := by
      simpa using h
    simp only [h', Bool.false_eq_true, if_false, List.mem_append] at hx
    rcases hx with hx | hx
    · exact Or.inl hx
    · simp at hx
      exact Or.inr hx

open Atlas.Migrate in
theorem runStmts_version (exec : StmtExec) (rev : Revision) :
    ∀ (l : List String) (i : Nat), ((runStmts exec rev l i).2.1).version = rev.version := by
  intro l
  induction l with
  | nil => intro i; rfl
  | cons s rest ih =>
    intro i
    simp only [runStmts]
    cases hs : exec s with
    | some msg => rfl
    | none => exact ih (i + 1)

open Atlas.Migrate in
theorem readRevision_some_version (revs : List Revision) (v : String) (rev : Revision)
    (h : readRevision revs v = some rev) : rev.version = v := by
  unfold readRevision at h
  have := List.find?_some h
  simpa [beq_iff_eq] using this

open Atlas.Migrate in
theorem execFile_revs_mem (exec : StmtExec) (op : String) (revs : List Revision)
    (f : MigFile) (x : Revision)
    (hx : x ∈ (execFile exec op revs f).2.1) : x ∈ revs ∨ x.version = f.version := by
  unfold execFile at hx
  cases hread : readRevision revs f.version with
  | some rev =>
    rw [hread] at hx
    by_cases happ : rev.applied < rev.total
    · simp only [happ, if_true] at hx
      by_cases hm : ((f.stmts.map stmtHash).take rev.applied ==
          rev.partialHashes.take rev.applied) = true
      · rw [hm] at hx
        simp only [if_true] at hx
        rcases writeRevision_mem revs _ x hx with h | h
        · exact Or.inl h
        · refine Or.inr ?_
          rw [h, runStmts_version]
          exact readRevision_some_version revs f.version rev hread
      · rw [Bool.not_eq_true] at hm
        rw [hm] at hx
        simp only [Bool.false_eq_true, if_false] at hx
        exact Or.inl hx
    · simp only [happ, if_false] at hx
      rcases writeRevision_mem _ _ x hx with h | h
      · rcases writeRevision_mem revs _ x h with h2 | h2
        · exact Or.inl h2
        · exact Or.inr (by rw [h2])
      · refine Or.inr ?_
        rw [h, runStmts_version]
  | none =>
    rw [hread] at hx
    rcases writeRevision_mem _ _ x hx with h | h
    · rcases writeRevision_mem revs _ x h with h2 | h2
      · exact Or.inl h2
      · exact Or.inr (by rw [h2])
    · refine Or.inr ?_
      rw [h, runStmts_version]

open Atlas.Migrate in
theorem execFiles_revs_mem (exec : StmtExec) (op : String) :
    ∀ (files : List MigFile) (revs : List Revision) (x : Revision),
    x ∈ (execFiles exec op files revs).2.1 →
    x ∈ revs ∨ x.version ∈ files.map MigFile.version := by
  intro files
  induction files with
  | nil => intro revs x hx; exact Or.inl hx
  | cons f rest ih =>
    intro revs x hx
    simp only [execFiles] at hx
    cases herr : (execFile exec op revs f).2.2 with
    | some e =>
      rw [herr] at hx
      simp only at hx
      rcases execFile_revs_mem exec op revs f x hx with h | h
      · exact Or.inl h
      · exact Or.inr (by simp [h])
    | none =>
      rw [herr] at hx
      simp only at hx
      rcases ih (execFile exec op revs f).2.1 x hx with h | h
      · rcases execFile_revs_mem exec op revs f x h with h2 | h2
        · exact Or.inl h2
        · exact Or.inr (by simp [h2])
      · exact Or.inr (by simp [h])

open Atlas.Migrate in
/-- C5: A checkpoint file written by WriteCheckpoint has `-- atlas:checkpoint <tag>` as its
first directive line (and is recognized as a checkpoint file); and when the directory's
last checkpoint file `cp` is the head of a sorted suffix `cp :: later`, with no applied
revisions, every earlier file is removed from the pending set — the pending set is exactly
`cp :: later` — and executing the pending set writes revision rows only for versions of
`cp` and the later files, never for the superseded earlier files. -/
theorem C5_checkpoint_semantics (p : Plan) (tag : String)
    (htag : ∀ c ∈ tag.toList, (c != Char.ofNat 10) = true)
    (exec : StmtExec) (op : String) (earlier later : List MigFile) (cp : MigFile)
    (hcp : cp.checkpoint = true)
    (hlater : ∀ g ∈ later, g.checkpoint = false)
    (hsorted : sortFiles (earlier ++ cp :: later) = earlier ++ cp :: later) :
    firstLine (writeCheckpointContent p tag) = "-- atlas:checkpoint " ++ tag
    ∧ isCheckpointContent (writeCheckpointContent p tag) = true
    ∧ pendingFiles (earlier ++ cp :: later) [] ExecOrder.linear = .ok (cp :: later)
    ∧ (∀ x ∈ (executeN exec op (earlier ++ cp :: later) [] ExecOrder.linear 0).2.1,
        x.version ∈ (cp :: later).map MigFile.version) := by
  have hdir : ∀ c ∈ "-- atlas:checkpoint ".toList, (c != Char.ofNat 10) = true := by
    decide
  have hfl : firstLine (writeCheckpointContent p tag) = "-- atlas:checkpoint " ++ tag := by
    unfold writeCheckpointContent firstLine
    have hsplit : ("-- atlas:checkpoint " ++ tag ++ "\n\n" ++ planContent p).toList
        = ("-- atlas:checkpoint ".toList ++ tag.toList)
          ++ ("\n\n" ++ planContent p).toList := by
      simp [String.toList]
    rw [hsplit]
    rw [takeWhile_all_append _ ("-- atlas:checkpoint ".toList ++ tag.toList) _ ?hall]
    case hall =>
      intro c hc
      rcases List.mem_append.mp hc with h | h
      · exact hdir c h
      · exact htag c h
    have hsplit2 : ("\n\n" ++ planContent p).toList = Char.ofNat 10 :: Char.ofNat 10
        :: (planContent p).toList := by
      have h1 : ("\n\n" ++ planContent p).toList = "\n\n".toList ++ (planContent p).toList := by
        simp [String.toList]
      rw [h1]
      rfl
    rw [hsplit2]
    rw [List.takeWhile_cons]
    simp only [bne_self_eq_false, Bool.false_eq_true, if_false, List.append_nil]
    have h2 : ("-- atlas:checkpoint ".toList ++ tag.toList)
        = ("-- atlas:checkpoint " ++ tag).toList := by simp [String.toList]
    rw [h2]
    rfl
  have hpend : pendingFiles (earlier ++ cp :: later) [] ExecOrder.linear
      = .ok (cp :: later) := by
    have hfil : (cp :: later).filter (fun g => !isApplied [] g) = cp :: later := by
      rw [List.filter_eq_self]
      intro a _
      rfl
    have hbad : (cp :: later).filter (isOutOfOrder []) = [] := by
      rw [List.filter_eq_nil_iff]
      intro a _
      simp [isOutOfOrder, maxVersion]
    simp only [pendingFiles, hsorted,
      fromLastCheckpoint_last earlier later cp hcp hlater]
    rw [hfil, hbad]
    rfl
  refine ⟨hfl, ?_, hpend, ?_⟩
  · unfold isCheckpointContent
    rw [hfl]
    have hsplit : ("-- atlas:checkpoint " ++ tag).toList
        = "-- atlas:checkpoint ".toList ++ tag.toList := by simp [String.toList]
    rw [hsplit]
    have h20 : ("-- atlas:checkpoint ".toList).length = 20 := rfl
    rw [← h20, List.take_left]
    simp
  · intro x hx
    unfold executeN at hx
    rw [hpend] at hx
    simp only [beq_self_eq_true, if_true] at hx
    rcases execFiles_revs_mem exec op (cp :: later) [] x hx with h | h
    · simp at h
    · exact h

open Atlas.Migrate in
/-- Witness for C5: directory 1.sql, 2_checkpoint.sql, 3.sql with no applied revisions —
the first directive line is computed, the pending set is exactly the checkpoint and the
later file, and 1.sql is superseded. -/
theorem C5_checkpoint_semantics_witness :
    firstLine (writeCheckpointContent ⟨"checkpoint", [⟨"CREATE TABLE t1(c int)", ""⟩], ""⟩ "v1")
      = "-- atlas:checkpoint " ++ "v1"
    ∧ pendingFiles [⟨"1.sql", ["s1"], false⟩, ⟨"2_checkpoint.sql", ["c1"], true⟩,
        ⟨"3.sql", ["s3"], false⟩] [] ExecOrder.linear
      = .ok [⟨"2_checkpoint.sql", ["c1"], true⟩, ⟨"3.sql", ["s3"], false⟩] := by
  have h := C5_checkpoint_semantics
    ⟨"checkpoint", [⟨"CREATE TABLE t1(c int)", ""⟩], ""⟩ "v1" (by decide)
    (fun _ => none) "apply"
    [⟨"1.sql", ["s1"], false⟩] [⟨"3.sql", ["s3"], false⟩] ⟨"2_checkpoint.sql", ["c1"], true⟩
    rfl (by decide) (by rfl)
  exact ⟨h.1, h.2.2.1⟩

section C1Lemmas

open Atlas.Sqlx

/-- Generic self-lookup: in a list whose keys are distinct, `find?` with a
member's key returns that member. -/
theorem find_key_self {α κ : Type} [BEq κ] [LawfulBEq κ] (key : α → κ)
    (l : List α) (x : α) (hnd : (l.map key).Nodup) (hx : x ∈ l) :
    l.find? (fun y => key y == key x) = some x := by
  induction l with
  | nil => cases hx
  | cons y rest ih =>
    rw [List.map_cons, List.nodup_cons] at hnd
    rcases List.mem_cons.mp hx with h | h
    · subst h
      rw [List.find?_cons_of_pos _ (by simp)]
    · by_cases hk : key y == key x
      · exact absurd ((eq_of_beq hk) ▸ List.mem_map_of_mem key h) hnd.1
      · rw [List.find?_cons_of_neg _ (by simpa using hk)]
        exact ih hnd.2 h

/-- Generic positional self-lookup over `enumFrom`. -/
theorem enumFrom_find_key_self {α κ : Type} [BEq κ] [LawfulBEq κ] (key : α → κ)
    (x : α) : ∀ (l : List α) (n : Nat), (l.map key).Nodup → x ∈ l →
    ∃ j, (l.enumFrom n).find? (fun p => key p.2 == key x) = some (j, x) := by
  intro l
  induction l with
  | nil => intro n _ hx; cases hx
  | cons y rest ih =>
    intro n hnd hx
    rw [List.map_cons, List.nodup_cons] at hnd
    rw [List.enumFrom_cons]
    rcases List.mem_cons.mp hx with h | h
    · subst h
      exact ⟨n, by rw [List.find?_cons_of_pos _ (by simp)]⟩
    · by_cases hk : key y == key x
      · exact absurd ((eq_of_beq hk) ▸ List.mem_map_of_mem key h) hnd.1
      · rcases ih (n + 1) hnd.2 h with ⟨j, hj⟩
        exact ⟨j, by rw [List.find?_cons_of_neg _ (by simpa using hk)]; exact hj⟩

/-- The second component of an `enumFrom` member is a list member. -/
theorem enumFrom_mem_snd {α : Type} (p : Nat × α) :
    ∀ (l : List α) (n : Nat), p ∈ l.enumFrom n → p.2 ∈ l := by
  intro l
  induction l with
  | nil => intro n h; cases h
  | cons y rest ih =>
    intro n h
    rw [List.enumFrom_cons] at h
    rcases List.mem_cons.mp h with h | h
    · subst h; exact List.mem_cons_self _ _
    · exact List.mem_cons_of_mem _ (ih (n + 1) h)

/-- Zipping a list with itself yields no differing pair. -/
theorem zip_self_any_bne {α : Type} [BEq α] [LawfulBEq α] (l : List α) :
    ((l.zip l).any (fun p => p.1 != p.2)) = false := by
  induction l with
  | nil => rfl
  | cons a rest ih => simp [List.zip_cons_cons, ih]

/-- An element comment never differs from itself. -/
theorem CommentChange_self (a : List Attr) :
    CommentChange a a = ChangeKind.noChange := by
  simp [CommentChange]

/-- A body definition never differs from itself. -/
theorem BodyDefChanged_self (s : String) : BodyDefChanged s s = false := by
  simp [BodyDefChanged]

/-- `noChange` is a left unit for the bitwise or of change kinds. -/
theorem noChange_lor (a : ChangeKind) : ChangeKind.noChange.lor a = a := by
  simp [ChangeKind.lor, ChangeKind.noChange]

/-- `noChange` is a right unit for the bitwise or of change kinds. -/
theorem lor_noChange (a : ChangeKind) : a.lor ChangeKind.noChange = a := by
  simp [ChangeKind.lor, ChangeKind.noChange]

/-- Membership is preserved by `insertPart`. -/
theorem insertPart_mem (p q : IndexPart) :
    ∀ l : List IndexPart, q ∈ insertPart p l → q = p ∨ q ∈ l := by
  intro l
  induction l with
  | nil => intro h; simpa [insertPart] using h
  | cons r rest ih =>
    intro h
    rw [insertPart] at h
    by_cases hle : p.seqNo ≤ r.seqNo
    · simp only [hle, if_true] at h
      rcases List.mem_cons.mp h with h | h
      · exact Or.inl h
      · exact Or.inr h
    · simp only [hle, if_false] at h
      rcases List.mem_cons.mp h with h | h
      · exact Or.inr (by simp [h])
      · rcases ih h with h | h
        · exact Or.inl h
        · exact Or.inr (List.mem_cons_of_mem _ h)

/-- Membership is preserved by `sortParts`. -/
theorem sortParts_mem (q : IndexPart) :
    ∀ l : List IndexPart, q ∈ sortParts l → q ∈ l := by
  intro l
  induction l with
  | nil => intro h; cases h
  | cons p rest ih =>
    intro h
    rw [sortParts] at h
    rcases insertPart_mem p q _ h with h | h
    · simp [h]
    · exact List.mem_cons_of_mem _ (ih h)

/-- The element loop of `partsChange` over a list of well-formed parts
against itself reports no change. -/
theorem partsChangeAux_self (d : DiffDriver) (hpa : ∀ i n, d.indexPartAttrChanged i i n = false)
    (I : Index) (renames : String → String) :
    ∀ (l : List IndexPart) (i : Nat),
      (∀ p ∈ l, (p.column.isSome || p.expr.isSome) = true) →
      partsChangeAux d I I renames l l i = ChangeKind.noChange := by
  intro l
  induction l with
  | nil => intro i _; rfl
  | cons p ps ih =>
    intro i hw
    rw [partsChangeAux]
    simp only [bne_self_eq_false, hpa, Bool.or_self, Bool.false_eq_true, if_false]
    have hp := hw p (List.mem_cons_self _ _)
    cases hc : p.column with
    | some c =>
      simp only [bne_self_eq_false, Bool.false_and, Bool.false_eq_true, if_false]
      exact ih (i + 1) (fun q hq => hw q (List.mem_cons_of_mem _ hq))
    | none =>
      cases he : p.expr with
      | some x =>
        simp only [bne_self_eq_false, Bool.false_and, Bool.false_eq_true, if_false]
        exact ih (i + 1) (fun q hq => hw q (List.mem_cons_of_mem _ hq))
      | none =>
        rw [hc, he] at hp
        simp at hp

/-- A well-formed index has no parts change against itself. -/
theorem partsChange_self (d : DiffDriver) (hpa : ∀ i n, d.indexPartAttrChanged i i n = false)
    (i : Index) (renames : String → String) (hw : wfIndex i) :
    partsChange d i i renames = ChangeKind.noChange := by
  rw [partsChange]
  simp only [bne_self_eq_false, Bool.false_eq_true, if_false]
  exact partsChangeAux_self d hpa _ renames (sortParts i.parts) 0
    (fun p hp => hw p (sortParts_mem p _ hp))

/-- A well-formed index has no change against itself. -/
theorem indexChange_self (d : DiffDriver)
    (hia : ∀ a, d.indexAttrChanged a a = false)
    (hpa : ∀ i n, d.indexPartAttrChanged i i n = false)
    (i : Index) (hw : wfIndex i) :
    indexChange d i i = ChangeKind.noChange := by
  rw [indexChange]
  simp only [bne_self_eq_false, hia, Bool.false_eq_true, if_false]
  rw [partsChange_self d hpa i nilRenames hw, CommentChange_self]
  rfl

/-- A foreign key has no change against itself. -/
theorem fkChange_self (d : DiffDriver)
    (hra : ∀ x, d.referenceChanged x x = false)
    (hfa : ∀ a, d.foreignKeyAttrChanged a a = false)
    (fk : ForeignKey) : fkChange d fk fk = ChangeKind.noChange := by
  rw [fkChange]
  simp only [bne_self_eq_false, zip_self_any_bne, hra, hfa, Bool.false_eq_true, if_false]

end C1Lemmas

section C1TableLemmas

open Atlas.Sqlx

/-- Binding a succeeding `Except` computation applies the continuation. -/
theorem except_bind_ok {e a b : Type} (x : a) (k : a → Except e b) :
    (do let y ← Except.ok x; k y) = k x := rfl

/-- `Table.column?` on a member's name with distinct column names returns
the member. -/
theorem table_column_self (t : Atlas.Sqlx.Table) (c : Column)
    (hnd : (t.columns.map Column.name).Nodup) (hc : c ∈ t.columns) :
    t.column? c.name = some c :=
  find_key_self Column.name t.columns c hnd hc

/-- The drop-or-modify column loop of a table against itself emits
nothing. -/
theorem dropModifyColumns_self (d : DiffDriver) (hd : SelfCleanDriver d)
    (t : Atlas.Sqlx.Table) (opts : DiffOptions)
    (hnd : (t.columns.map Column.name).Nodup) :
    ∀ l : List Column, (∀ c ∈ l, c ∈ t.columns) →
    dropModifyColumns d t t opts l = .ok [] := by
  intro l
  induction l with
  | nil => intro _; rfl
  | cons c rest ih =>
    intro hmem
    rw [dropModifyColumns]
    rw [table_column_self t c hnd (hmem c (List.mem_cons_self _ _))]
    simp only [hd.columnRefl t c opts, except_bind_ok,
      ih (fun x hx => hmem x (List.mem_cons_of_mem _ hx))]

/-- The add-column loop of a table against itself emits nothing. -/
theorem addColumnChanges_self (t : Atlas.Sqlx.Table) :
    ∀ l : List Column, (∀ c ∈ l, c ∈ t.columns) →
    addColumnChanges t l = [] := by
  intro l
  induction l with
  | nil => intro _; rfl
  | cons c rest ih =>
    intro hmem
    rw [addColumnChanges]
    have hs : (t.column? c.name).isSome = true := by
      rw [Table.column?]
      rw [List.find?_isSome]
      exact ⟨c, hmem c (List.mem_cons_self _ _), by simp⟩
    rw [hs]
    simp only [if_true]
    exact ih (fun x hx => hmem x (List.mem_cons_of_mem _ hx))

/-- `columnDiff` of a table against itself is empty. -/
theorem columnDiff_self (d : DiffDriver) (hd : SelfCleanDriver d)
    (t : Atlas.Sqlx.Table) (opts : DiffOptions)
    (hnd : (t.columns.map Column.name).Nodup) :
    columnDiff d t t opts = .ok [] := by
  rw [columnDiff]
  rw [dropModifyColumns_self d hd t opts hnd t.columns (fun c hc => hc)]
  rw [addColumnChanges_self t t.columns (fun c hc => hc)]
  rfl

/-- `pkDiff` of a table against itself is empty. -/
theorem pkDiff_self (d : DiffDriver) (hd : SelfCleanDriver d)
    (t : Atlas.Sqlx.Table) (opts : DiffOptions)
    (hwpk : ∀ pk, t.primaryKey = some pk → wfIndex pk) :
    pkDiff d t t opts = [] := by
  rw [pkDiff]
  cases hpk : t.primaryKey with
  | none => rfl
  | some pk =>
    have hch : indexChange d pk pk = ChangeKind.noChange :=
      indexChange_self d hd.indexAttr hd.indexPartAttr pk (hwpk pk hpk)
    have hmask : (indexChange d pk pk).maskUnique = ChangeKind.noChange := by
      rw [hch]; rfl
    simp only [hmask, bne_self_eq_false, Bool.false_eq_true, if_false,
      Bool.and_false]

/-- `Table.indexPos?` on a member's name with distinct index names returns
the member at some position. -/
theorem table_indexPos_self (t : Atlas.Sqlx.Table) (i : Index)
    (hnd : (t.indexes.map Index.name).Nodup) (hi : i ∈ t.indexes) :
    ∃ j, t.indexPos? i.name = some (j, i) := by
  rw [Table.indexPos?]
  exact enumFrom_find_key_self Index.name i t.indexes 0 hnd hi

/-- The drop-or-modify index loop of a table against itself emits no
change. -/
theorem dropModifyIndexes_self (d : DiffDriver) (hd : SelfCleanDriver d)
    (t : Atlas.Sqlx.Table)
    (hnd : (t.indexes.map Index.name).Nodup)
    (hwf : ∀ i ∈ t.indexes, wfIndex i) :
    ∀ l : List Index, (∀ i ∈ l, i ∈ t.indexes) →
    (dropModifyIndexes d t t l).1 = [] := by
  intro l
  induction l with
  | nil => intro _; rfl
  | cons i rest ih =>
    intro hmem
    rw [dropModifyIndexes]
    rcases table_indexPos_self t i hnd (hmem i (List.mem_cons_self _ _)) with ⟨j, hj⟩
    rw [hj]
    have hch : indexChange d i i = ChangeKind.noChange :=
      indexChange_self d hd.indexAttr hd.indexPartAttr i
        (hwf i (hmem i (List.mem_cons_self _ _)))
    simp only [hch, bne_self_eq_false, Bool.false_eq_true, if_false]
    exact ih (fun x hx => hmem x (List.mem_cons_of_mem _ hx))

/-- The add-index loop of a table against itself emits nothing. -/
theorem addIndexChanges_self (t : Atlas.Sqlx.Table) (exs : List Nat) :
    ∀ l : List (Nat × Index), (∀ p ∈ l, p.2 ∈ t.indexes) →
    addIndexChanges t exs l = [] := by
  intro l
  induction l with
  | nil => intro _; rfl
  | cons p rest ih =>
    intro hmem
    obtain ⟨j, idx⟩ := p
    rw [addIndexChanges]
    have hs : (t.index? idx.name).isSome = true := by
      rw [Table.index?]
      rw [List.find?_isSome]
      exact ⟨idx, hmem (j, idx) (List.mem_cons_self _ _), by simp⟩
    rw [hs]
    by_cases hj : exs.contains j
    · simp only [hj, if_true]
      exact ih (fun x hx => hmem x (List.mem_cons_of_mem _ hx))
    · simp only [hj, if_true, if_false, Bool.false_eq_true]
      exact ih (fun x hx => hmem x (List.mem_cons_of_mem _ hx))

/-- `indexDiffT` of a table against itself is empty. -/
theorem indexDiffT_self (d : DiffDriver) (hd : SelfCleanDriver d)
    (t : Atlas.Sqlx.Table) (opts : DiffOptions)
    (hnd : (t.indexes.map Index.name).Nodup)
    (hwf : ∀ i ∈ t.indexes, wfIndex i) :
    indexDiffT d t t opts = .ok [] := by
  rw [indexDiffT]
  rw [dropModifyIndexes_self d hd t hnd hwf t.indexes (fun i hi => hi)]
  rw [addIndexChanges_self t (dropModifyIndexes d t t t.indexes).2 t.indexes.enum
    (fun p hp => enumFrom_mem_snd p t.indexes 0 hp)]
  rfl

/-- `Table.foreignKey?` on a member's symbol with distinct symbols returns
the member. -/
theorem table_fk_self (t : Atlas.Sqlx.Table) (fk : ForeignKey)
    (hnd : (t.foreignKeys.map ForeignKey.symbol).Nodup) (hfk : fk ∈ t.foreignKeys) :
    t.foreignKey? fk.symbol = some fk :=
  find_key_self ForeignKey.symbol t.foreignKeys fk hnd hfk

/-- The drop-or-modify foreign-key loop of a table against itself emits
nothing. -/
theorem dropModifyFKs_self (d : DiffDriver) (hd : SelfCleanDriver d)
    (t : Atlas.Sqlx.Table) (opts : DiffOptions)
    (hnd : (t.foreignKeys.map ForeignKey.symbol).Nodup) :
    ∀ l : List ForeignKey, (∀ fk ∈ l, fk ∈ t.foreignKeys) →
    dropModifyFKs d t opts l = [] := by
  intro l
  induction l with
  | nil => intro _; rfl
  | cons fk rest ih =>
    intro hmem
    rw [dropModifyFKs]
    rw [table_fk_self t fk hnd (hmem fk (List.mem_cons_self _ _))]
    have hch : fkChange d fk fk = ChangeKind.noChange :=
      fkChange_self d hd.refAction hd.fkAttr fk
    simp only [hch, bne_self_eq_false, Bool.false_eq_true, if_false]
    exact ih (fun x hx => hmem x (List.mem_cons_of_mem _ hx))

/-- The add foreign-key loop of a table against itself emits nothing. -/
theorem addFKChanges_self (t : Atlas.Sqlx.Table) (opts : DiffOptions) :
    ∀ l : List ForeignKey, (∀ fk ∈ l, fk ∈ t.foreignKeys) →
    addFKChanges t opts l = [] := by
  intro l
  induction l with
  | nil => intro _; rfl
  | cons fk rest ih =>
    intro hmem
    rw [addFKChanges]
    have hs : (t.foreignKey? fk.symbol).isSome = true := by
      rw [Table.foreignKey?]
      rw [List.find?_isSome]
      exact ⟨fk, hmem fk (List.mem_cons_self _ _), by simp⟩
    rw [hs]
    simp only [if_true]
    exact ih (fun x hx => hmem x (List.mem_cons_of_mem _ hx))

/-- `tableDiff` of a well-formed table against itself is empty. -/
theorem tableDiff_self (d : DiffDriver) (hd : SelfCleanDriver d)
    (t : Atlas.Sqlx.Table) (opts : DiffOptions) (hw : wfTable t) :
    tableDiff d t t opts = .ok [] := by
  obtain ⟨hcols, hidxs, hfks, _htrs, hwfi, hwpk⟩ := hw
  have hattr := hd.tableAttr t opts
  have hcol := columnDiff_self d hd t opts hcols
  have hpk := pkDiff_self d hd t opts (fun pk hpk => hwpk pk (by rw [hpk]; simp))
  have hidx := indexDiffT_self d hd t opts hidxs hwfi
  have hfk1 := dropModifyFKs_self d hd t opts hfks t.foreignKeys (fun fk h => h)
  have hfk2 := addFKChanges_self t opts t.foreignKeys (fun fk h => h)
  rw [tableDiff]
  simp only [bne_self_eq_false, Bool.false_eq_true, if_false]
  cases hn : d.normalizeCap with
  | none =>
    simp only [except_bind_ok, hattr, hcol, hpk, hidx, hfk1, hfk2,
      List.append_nil, List.nil_append]
  | some n =>
    simp only [hd.normRefl n hn t opts, except_bind_ok, hattr, hcol, hpk, hidx,
      hfk1, hfk2, List.append_nil, List.nil_append]

end C1TableLemmas

section C1SchemaLemmas

open Atlas.Sqlx

/-- The drop-or-modify trigger loop of a trigger list against itself with
a reflexively-clean trigger differ emits nothing. -/
theorem dropModifyTriggers_self (td : Trigger → Trigger → Except String (List Change))
    (htd : ∀ r, td r r = .ok []) (ts : List Trigger) (opts : DiffOptions)
    (hnd : (ts.map Trigger.name).Nodup) :
    ∀ l : List Trigger, (∀ r ∈ l, r ∈ ts) →
    dropModifyTriggers td ts opts l = .ok [] := by
  intro l
  induction l with
  | nil => intro _; rfl
  | cons r rest ih =>
    intro hmem
    rw [dropModifyTriggers]
    rw [find_key_self Trigger.name ts r hnd (hmem r (List.mem_cons_self _ _))]
    simp only [htd r, except_bind_ok,
      ih (fun x hx => hmem x (List.mem_cons_of_mem _ hx)), List.isEmpty_nil,
      if_true, List.nil_append]

/-- The add trigger loop of a trigger list against itself emits nothing. -/
theorem addTriggerChanges_self (ts : List Trigger) (opts : DiffOptions) :
    ∀ l : List Trigger, (∀ r ∈ l, r ∈ ts) →
    addTriggerChanges ts opts l = [] := by
  intro l
  induction l with
  | nil => intro _; rfl
  | cons r rest ih =>
    intro hmem
    rw [addTriggerChanges]
    have hs : (ts.find? (fun x => x.name == r.name)).isSome = true := by
      rw [List.find?_isSome]
      exact ⟨r, hmem r (List.mem_cons_self _ _), by simp⟩
    rw [hs]
    simp only [if_true]
    exact ih (fun x hx => hmem x (List.mem_cons_of_mem _ hx))

/-- `triggerDiff` of a trigger list against itself is empty. -/
theorem triggerDiff_self (d : DiffDriver) (hd : SelfCleanDriver d)
    (ts : List Trigger) (opts : DiffOptions)
    (hnd : (ts.map Trigger.name).Nodup) :
    triggerDiff d ts ts opts = .ok [] := by
  rw [triggerDiff]
  cases hc : d.triggerDiffCap with
  | none => rfl
  | some td =>
    simp only [dropModifyTriggers_self td (hd.triggerRefl td hc) ts opts hnd ts
        (fun r hr => hr), except_bind_ok,
      addTriggerChanges_self ts opts ts (fun r hr => hr), List.append_nil]

/-- The drop-or-modify view-index loop of a view against itself emits no
change. -/
theorem dropModifyIndexesV_self (d : DiffDriver) (hd : SelfCleanDriver d)
    (v : View) (opts : DiffOptions)
    (hnd : (v.indexes.map Index.name).Nodup)
    (hwf : ∀ i ∈ v.indexes, wfIndex i) :
    ∀ l : List Index, (∀ i ∈ l, i ∈ v.indexes) →
    (dropModifyIndexesV d v opts l).1 = [] := by
  intro l
  induction l with
  | nil => intro _; rfl
  | cons i rest ih =>
    intro hmem
    rw [dropModifyIndexesV]
    have hfind : ∃ j, v.indexPos? i.name = some (j, i) := by
      rw [View.indexPos?]
      exact enumFrom_find_key_self Index.name i v.indexes 0 hnd
        (hmem i (List.mem_cons_self _ _))
    rcases hfind with ⟨j, hj⟩
    rw [hj]
    have hch : indexChange d i i = ChangeKind.noChange :=
      indexChange_self d hd.indexAttr hd.indexPartAttr i
        (hwf i (hmem i (List.mem_cons_self _ _)))
    simp only [hch, bne_self_eq_false, Bool.false_eq_true, if_false]
    exact ih (fun x hx => hmem x (List.mem_cons_of_mem _ hx))

/-- Every list member appears in `enumFrom` at some position. -/
theorem mem_enumFrom_of_mem {α : Type} (x : α) :
    ∀ (l : List α) (n : Nat), x ∈ l → ∃ j, (j, x) ∈ l.enumFrom n := by
  intro l
  induction l with
  | nil => intro n h; cases h
  | cons y rest ih =>
    intro n h
    rw [List.enumFrom_cons]
    rcases List.mem_cons.mp h with h | h
    · exact ⟨n, by rw [h]; exact List.mem_cons_self _ _⟩
    · rcases ih (n + 1) h with ⟨j, hj⟩
      exact ⟨j, List.mem_cons_of_mem _ hj⟩

/-- The add view-index loop of a view against itself emits nothing. -/
theorem addIndexChangesV_self (v : View) (exs : List Nat) (opts : DiffOptions) :
    ∀ l : List (Nat × Index), (∀ p ∈ l, p.2 ∈ v.indexes) →
    addIndexChangesV v exs opts l = [] := by
  intro l
  induction l with
  | nil => intro _; rfl
  | cons p rest ih =>
    intro hmem
    obtain ⟨j, idx⟩ := p
    rw [addIndexChangesV]
    have hs : (v.indexPos? idx.name).isSome = true := by
      rw [View.indexPos?]
      rw [List.find?_isSome]
      rcases mem_enumFrom_of_mem idx v.indexes 0
        (hmem (j, idx) (List.mem_cons_self _ _)) with ⟨k, hk⟩
      exact ⟨(k, idx), hk, by simp⟩
    rw [hs]
    by_cases hj : exs.contains j
    · simp only [hj, if_true]
      exact ih (fun x hx => hmem x (List.mem_cons_of_mem _ hx))
    · simp only [hj, if_true, if_false, Bool.false_eq_true]
      exact ih (fun x hx => hmem x (List.mem_cons_of_mem _ hx))

/-- `indexDiffV` of a view against itself is empty. -/
theorem indexDiffV_self (d : DiffDriver) (hd : SelfCleanDriver d)
    (v : View) (opts : DiffOptions)
    (hnd : (v.indexes.map Index.name).Nodup)
    (hwf : ∀ i ∈ v.indexes, wfIndex i) :
    indexDiffV d v v opts = .ok [] := by
  rw [indexDiffV]
  rw [dropModifyIndexesV_self d hd v opts hnd hwf v.indexes (fun i hi => hi)]
  rw [addIndexChangesV_self v (dropModifyIndexesV d v opts v.indexes).2 opts
    v.indexes.enum (fun p hp => enumFrom_mem_snd p v.indexes 0 hp)]
  rfl

/-- The view column loop of a view against itself emits nothing. -/
theorem columnDiffV_self (v : View) (opts : DiffOptions)
    (hnd : (v.columns.map Column.name).Nodup) :
    ∀ l : List Column, (∀ c ∈ l, c ∈ v.columns) →
    columnDiffV v v opts l = [] := by
  intro l
  induction l with
  | nil => intro _; rfl
  | cons c rest ih =>
    intro hmem
    rw [columnDiffV]
    have hfind : v.column? c.name = some c :=
      find_key_self Column.name v.columns c hnd (hmem c (List.mem_cons_self _ _))
    rw [hfind]
    simp only [CommentChange_self, bne_self_eq_false, Bool.false_eq_true, if_false]
    exact ih (fun x hx => hmem x (List.mem_cons_of_mem _ hx))

/-- `viewDefChanged` of a view against itself is false. -/
theorem viewDefChanged_self (d : DiffDriver) (hd : SelfCleanDriver d) (v : View) :
    viewDefChanged d v v = false := by
  rw [viewDefChanged]
  cases hc : d.viewDefChangedCap with
  | none => exact BodyDefChanged_self v.defn
  | some f => exact hd.viewDefRefl f hc v

/-- `viewDiff` of a well-formed view against itself is empty. -/
theorem viewDiff_self (d : DiffDriver) (hd : SelfCleanDriver d)
    (v : View) (opts : DiffOptions) (hw : wfView v) :
    viewDiff d v v opts = .ok [] := by
  obtain ⟨hcols, hidxs, _htrs, hwfi⟩ := hw
  rw [viewDiff]
  simp only [indexDiffV_self d hd v opts hidxs hwfi, except_bind_ok,
    columnDiffV_self v opts hcols v.columns (fun c hc => hc),
    hd.viewAttr v, List.append_nil, List.nil_append, viewDefChanged_self d hd v,
    List.length_nil, Bool.or_false, Nat.lt_irrefl, decide_False,
    Bool.false_eq_true, if_false]

end C1SchemaLemmas

section C1TopLemmas

open Atlas.Sqlx

/-- `findTable` of a schema member under a reflexively-clean driver
returns the member itself. -/
theorem findTable_self (d : DiffDriver) (hd : SelfCleanDriver d)
    (S : Schema) (t : Atlas.Sqlx.Table)
    (hnd : (S.tables.map Table.name).Nodup) (ht : t ∈ S.tables) :
    d.findTable S t = .ok t := by
  rw [DiffDriver.findTable]
  cases hc : d.tableFinderCap with
  | some f => exact hd.finderRefl f hc S t ht
  | none =>
    rw [Schema.table?]
    rw [find_key_self Table.name S.tables t hnd ht]

/-- The drop-or-modify table loop of a schema against itself emits
nothing. -/
theorem dropModifyTables_self (d : DiffDriver) (hd : SelfCleanDriver d)
    (S : Schema) (opts : DiffOptions)
    (hnd : (S.tables.map Table.name).Nodup)
    (hwf : ∀ t ∈ S.tables, wfTable t) :
    ∀ l : List Atlas.Sqlx.Table, (∀ t ∈ l, t ∈ S.tables) →
    dropModifyTables d S opts l = .ok [] := by
  intro l
  induction l with
  | nil => intro _; rfl
  | cons t rest ih =>
    intro hmem
    have ht : t ∈ S.tables := hmem t (List.mem_cons_self _ _)
    have hwt := hwf t ht
    rw [dropModifyTables]
    rw [findTable_self d hd S t hnd ht]
    simp only [tableDiff_self d hd t opts hwt, except_bind_ok,
      triggerDiff_self d hd t.triggers opts hwt.2.2.2.1,
      ih (fun x hx => hmem x (List.mem_cons_of_mem _ hx)),
      List.length_nil, Nat.lt_irrefl, decide_False, Bool.false_eq_true, if_false,
      List.nil_append]

/-- The add-table loop of a schema against itself emits nothing. -/
theorem addTableLoop_self (d : DiffDriver) (hd : SelfCleanDriver d)
    (S : Schema) (opts : DiffOptions)
    (hnd : (S.tables.map Table.name).Nodup) :
    ∀ l : List Atlas.Sqlx.Table, (∀ t ∈ l, t ∈ S.tables) →
    addTableLoop d S opts l = .ok [] := by
  intro l
  induction l with
  | nil => intro _; rfl
  | cons t rest ih =>
    intro hmem
    rw [addTableLoop]
    rw [findTable_self d hd S t hnd (hmem t (List.mem_cons_self _ _))]
    exact ih (fun x hx => hmem x (List.mem_cons_of_mem _ hx))

/-- `findView` of a schema member with distinct view keys returns the
member itself. -/
theorem findView_self (S : Schema) (v : View)
    (hnd : (S.views.map viewKey).Nodup) (hv : v ∈ S.views) :
    findView S v = some v := by
  have h : S.views.find? (fun x => viewKey x == viewKey v) = some v :=
    find_key_self viewKey S.views v hnd hv
  rw [findView]
  exact h

/-- The drop-or-modify view loop of a schema against itself emits
nothing. -/
theorem dropModifyViews_self (d : DiffDriver) (hd : SelfCleanDriver d)
    (S : Schema) (opts : DiffOptions)
    (hnd : (S.views.map viewKey).Nodup)
    (hwf : ∀ v ∈ S.views, wfView v) :
    ∀ l : List View, (∀ v ∈ l, v ∈ S.views) →
    dropModifyViews d S opts l = .ok [] := by
  intro l
  induction l with
  | nil => intro _; rfl
  | cons v rest ih =>
    intro hmem
    have hv : v ∈ S.views := hmem v (List.mem_cons_self _ _)
    have hwv := hwf v hv
    rw [dropModifyViews]
    rw [findView_self S v hnd hv]
    simp only [viewDiff_self d hd v opts hwv, except_bind_ok,
      triggerDiff_self d hd v.triggers opts hwv.2.2.1,
      ih (fun x hx => hmem x (List.mem_cons_of_mem _ hx)), List.nil_append]

/-- The add-view loop of a schema against itself emits nothing. -/
theorem addViewLoop_self (S : Schema) (opts : DiffOptions) :
    ∀ l : List View, (∀ v ∈ l, v ∈ S.views) →
    addViewLoop S opts l = [] := by
  intro l
  induction l with
  | nil => intro _; rfl
  | cons v rest ih =>
    intro hmem
    rw [addViewLoop]
    have hs : (findView S v).isSome = true := by
      rw [findView]
      rw [List.find?_isSome]
      exact ⟨v, hmem v (List.mem_cons_self _ _), by simp⟩
    rw [hs]
    simp only [if_true]
    exact ih (fun x hx => hmem x (List.mem_cons_of_mem _ hx))

/-- `schemaDiff` of a well-formed schema against itself is empty. -/
theorem schemaDiff_self (d : DiffDriver) (hd : SelfCleanDriver d)
    (S : Schema) (opts : DiffOptions) (hw : wfSchema S) :
    schemaDiff d S S opts = .ok [] := by
  obtain ⟨htab, hview, hwt, hwv⟩ := hw
  rw [schemaDiff]
  simp only [bne_self_eq_false, Bool.false_eq_true, if_false]
  rw [hd.schemaAttr S]
  simp only [hd.schemaObject S opts, except_bind_ok,
    dropModifyTables_self d hd S opts htab hwt S.tables (fun t ht => ht),
    addTableLoop_self d hd S opts htab S.tables (fun t ht => ht),
    dropModifyViews_self d hd S opts hview hwv S.views (fun v hv => hv),
    addViewLoop_self S opts S.views (fun v hv => hv)]
  cases hc : d.procFuncsDiffCap with
  | none => rfl
  | some pf =>
    simp only [hd.procFuncsRefl pf hc S opts, except_bind_ok]
    rfl

/-- `SchemaDiff` of a well-formed schema against itself is empty. -/
theorem SchemaDiff_self_empty (d : DiffDriver) (hd : SelfCleanDriver d)
    (S : Schema) (opts : DiffOptions) (hw : wfSchema S) :
    SchemaDiff d S S opts = .ok [] := by
  rw [SchemaDiff]
  simp only [schemaDiff_self d hd S opts hw, except_bind_ok]
  rw [mayAnnotate]
  cases hc : d.annotateCap with
  | none => rfl
  | some f => simp only [hd.annotateEmpty f hc opts, except_bind_ok]

end C1TopLemmas

section C1Claim

open Atlas.Sqlx

/-- C1: diff is idempotent — for every well-formed schema `S` (distinct
element names per kind and every index part carrying a column or an
expression) and every driver whose element predicates report no change on
identical inputs and whose implemented optional capabilities behave
neutrally on identical inputs, `SchemaDiff d S S opts` returns an empty
change list. -/
theorem C1_diff_self_empty (d : DiffDriver) (hd : SelfCleanDriver d)
    (S : Schema) (hw : wfSchema S) (opts : DiffOptions) :
    SchemaDiff d S S opts = .ok [] :=
  SchemaDiff_self_empty d hd S opts hw

/-- Witness for C1: the trivial driver (all predicates constantly clean,
no optional capability) on the concrete sample schema. -/
theorem C1_diff_self_empty_witness :
    SchemaDiff trivialDriver sampleSchema sampleSchema DiffOptions.none' = .ok [] :=
  C1_diff_self_empty trivialDriver
    ⟨fun _ => rfl, fun _ _ => rfl, fun _ _ => rfl, fun _ => rfl,
     fun _ _ _ => rfl, fun _ => rfl, fun _ _ => rfl, fun _ => rfl, fun _ => rfl,
     fun _ h => Option.noConfusion h, fun _ h => Option.noConfusion h,
     fun _ h => Option.noConfusion h, fun _ h => Option.noConfusion h,
     fun _ h => Option.noConfusion h, fun _ h => Option.noConfusion h⟩
    sampleSchema (by decide) DiffOptions.none'

end C1Claim
